import Mathlib

/-!
Verification development for the EXASPERATION document-chunking and
retrieval-reranking core.

The Python sources are shallowly embedded:

* text is `List Char`; Python `str.strip`, `str.split('\n')`, `'\n'.join`,
  regex word counting and the section state machines are translated as
  executable functions with the same semantics;
* floating point relevance scores are modelled by `ℚ` (the claims settled
  here only compare scores against the literal thresholds 0.5/0.6/0.7/0.9,
  so exact rational arithmetic is a faithful abstraction);
* external collaborators (the NLTK tokenizer used for density/sentence
  boundaries, the cross-encoder model, langchain's
  RecursiveCharacterTextSplitter, and the regex feature extractor whose
  output is only stored into metadata) are opaque parameters ("oracles"):
  the theorems hold for every value of these parameters, and concrete
  evaluations instantiate them explicitly;
* Python's stable `sorted(..., reverse=True)` is modelled by
  `List.insertionSort` with the reflected "greater or equal score"
  relation, which is stable and therefore produces the same list as any
  stable descending sort.
-/

set_option maxRecDepth 4000

set_option maxHeartbeats 2000000

/-! ### Python-style text primitives (`src/` uses only ASCII semantics) -/

namespace Exasp

/-- Characters treated as whitespace by Python's `str.strip()` and by the
regex class `\s` (ASCII). -/
def isPyWs (c : Char) : Bool :=
  c = ' ' || c = '\t' || c = '\n' || c = '\r' || c = '\x0b' || c = '\x0c'

abbrev Text := List Char

/-- `str.lstrip()` -/
def trimL (t : Text) : Text := t.dropWhile isPyWs

/-- `str.rstrip()` -/
def trimR (t : Text) : Text := (t.reverse.dropWhile isPyWs).reverse

/-- `str.strip()` -/
def pyStrip (t : Text) : Text := trimR (trimL t)

/-- The sequence of non-whitespace characters of a text, in order. -/
def nonWS (t : Text) : Text := t.filter (fun c => !isPyWs c)

/-- `text.split('\n')` -/
def splitLines (t : Text) : List Text := t.splitOn '\n'

/-- `'\n'.join(lines)` -/
def joinNL (ls : List Text) : Text := List.intercalate ['\n'] ls

/-! ### Reranker (`src/src/retrieval/reranker.py`)

`Reranker.diversify_results`, `Reranker.rerank` and
`Reranker.rerank_with_scores` are embedded below.  The relevance score of a
candidate (cross-encoder output, or the heuristic fallback score) is an
opaque parameter `score : RDoc → ℚ`: every theorem about the post-scoring
logic holds for any scoring function.  -/

/-- `'\n\n'.join`-style separator used when merging semantic chunks. -/
def nlnl : Text := ['\n', '\n']

/-- A retrieved candidate document, with the metadata field the reranker's
post-scoring logic reads (`metadata.get("doc_type", "unknown")`). -/
structure RDoc where
  pageContent : String
  docType : Option String
deriving DecidableEq, Repr

/-- `doc.metadata.get("doc_type", "unknown")` -/
def RDoc.typeKey (d : RDoc) : String := d.docType.getD "unknown"

abbrev Scored := RDoc × ℚ

/-- Reflected relation: `a` sorts no later than `b` in a descending sort. -/
def scGE (a b : Scored) : Prop := b.2 ≤ a.2

instance : DecidableRel scGE := fun a b => inferInstanceAs (Decidable (b.2 ≤ a.2))

instance : IsTotal Scored scGE := ⟨fun a b => le_total b.2 a.2⟩

instance : IsTrans Scored scGE := ⟨fun _ _ _ h1 h2 => le_trans h2 h1⟩

/-- Python's `sorted(items, key=lambda x: x[1], reverse=True)`: a stable
descending sort by score. -/
def sortDesc (l : List Scored) : List Scored := l.insertionSort scGE

/-- Iteration order of `type_groups` (a `defaultdict` populated in list
order): document types in order of first occurrence. -/
def firstKeys (l : List Scored) : List String :=
  l.foldl (fun acc p => if p.1.typeKey ∈ acc then acc else acc ++ [p.1.typeKey]) []

/-- `sorted(docs, key=..., reverse=True)[0]` for the group of one document
type (`none` when the group is empty, mirroring the `if docs:` guard). -/
def topOfGroup (l : List Scored) (k : String) : Option Scored :=
  (sortDesc (l.filter (fun p => p.1.typeKey = k))).head?

/-- First phase of `diversify_results`: the best-scoring document of each
type, kept only when its score is at least 0.6. -/
def topPerType (l : List Scored) : List Scored :=
  (firstKeys l).filterMap (fun k =>
    (topOfGroup l k).bind (fun top => if mkRat 6 10 ≤ top.2 then some top else none))

/-- `Reranker.diversify_results`. -/
def diversifyResults (l : List Scored) : List Scored :=
  if l.length ≤ 3 then l
  else
    let tops := topPerType l
    let remaining := sortDesc (l.filter (fun p => p ∉ tops))
    let withFill := tops ++ remaining.filter (fun p => mkRat 5 10 ≤ p.2)
    sortDesc withFill

/-- `Reranker.rerank` (threshold default 0.7 at call sites). -/
def rerank (score : RDoc → ℚ) (docs : List RDoc) (threshold : ℚ) : List RDoc :=
  if docs = [] then []
  else
    let scored := docs.map (fun d => (d, score d))
    let diversified := diversifyResults scored
    let filtered := (diversified.filter (fun p => threshold ≤ p.2)).map (·.1)
    if filtered.length < 3 ∧ scored ≠ [] then
      ((sortDesc scored).take 3).map (·.1)
    else filtered

/-! ### Metadata model

Python metadata dicts are embedded as insertion-ordered association lists
with dict `[...]=` semantics (update in place, else append). -/

/-- `Reranker.rerank_with_scores` (threshold default 0.0). -/
def rerankWithScores (score : RDoc → ℚ) (docs : List RDoc) (threshold : ℚ) :
    List Scored :=
  if docs = [] then []
  else
    let scored := docs.map (fun d => (d, score d))
    let diversified := diversifyResults scored
    let filtered := diversified.filter (fun p => threshold ≤ p.2)
    sortDesc filtered

/-- A metadata value (strings, numbers, booleans, nested lists/dicts). -/
inductive MVal where
  | s (v : String)
  | n (v : ℕ)
  | b (v : Bool)
  | q (v : ℚ)
  | arr (vs : List MVal)
  | obj (kvs : List (String × MVal))

abbrev Meta := List (String × MVal)

/-- Python `d[k] = v`: update in place if present, else append. -/
def metaSet (m : Meta) (k : String) (v : MVal) : Meta :=
  if m.any (fun kv => kv.1 = k) then
    m.map (fun kv => if kv.1 = k then (k, v) else kv)
  else m ++ [(k, v)]

/-- Python `d.get(k)`. -/
def metaGet (m : Meta) (k : String) : Option MVal :=
  (m.find? (fun kv => kv.1 = k)).map (·.2)

/-- Python `d.get(k, dflt)` for string-valued fields. -/
def metaGetStr (m : Meta) (k : String) (dflt : String) : String :=
  match metaGet m k with
  | some (.s v) => v
  | _ => dflt

/-- Python `k in d`. -/
def metaHas (m : Meta) (k : String) : Bool := (metaGet m k).isSome

def metaKeys (m : Meta) : List String := m.map (·.1)

/-- `for key, value in items: d[key] = value`. -/
def metaSetAll (m : Meta) (kvs : List (String × MVal)) : Meta :=
  kvs.foldl (fun acc kv => metaSet acc kv.1 kv.2) m

/-- A langchain `Document`: page content plus metadata. -/
structure PDoc where
  pageContent : Text
  metadata : Meta

/-- `SemanticChunker.__init__` parameters. -/
structure ChunkCfg where
  minSize : ℕ
  maxSize : ℕ
  overlap : ℕ

/-- `SemanticChunker()` defaults: `min_chunk_size=200, max_chunk_size=1500,
chunk_overlap=150`. -/
def defaultCfg : ChunkCfg := ⟨200, 1500, 150⟩

/-- The fixed-key dict returned by `_extract_content_features` (the keys are
initialized up front in the source and never removed). -/
structure Features where
  contentType : MVal
  entities : MVal
  securityEntities : MVal
  exabeamEntities : MVal
  complexity : MVal
  informationDensity : MVal

def defaultFeatures : Features := ⟨.arr [], .arr [], .arr [], .arr [], .q 0, .q 0⟩

/-- `features.items()` in the source's insertion order. -/
def featItems (f : Features) : List (String × MVal) :=
  [("content_type", f.contentType), ("entities", f.entities),
   ("security_entities", f.securityEntities), ("exabeam_entities", f.exabeamEntities),
   ("complexity", f.complexity), ("information_density", f.informationDensity)]

/-- Opaque external collaborators of the chunker: the NLTK-dependent
boundary finder and size adjuster, langchain's
`RecursiveCharacterTextSplitter` (plain, and with explicit separators), and
the regex/NLTK feature extractor (whose output is only stored into chunk
metadata).  Every theorem below holds for every value of these fields. -/
structure Oracles where
  boundariesOf : Text → List ℕ
  adjustOf : Text → ℕ × ℕ
  rcts : ℕ → ℕ → Text → List Text
  rctsSep : ℕ → ℕ → Text → List Text
  featuresOf : Text → Features

/-! ### Shared line-level predicates -/

def backtick : Char := Char.ofNat 96

/-- The code-fence delimiter. -/
def fence : Text := [backtick, backtick, backtick]

/-- `line.strip().startswith('```')` -/
def isDelimLine (line : Text) : Bool := fence.isPrefixOf (pyStrip line)

/-- Lines of `t` whose stripped form starts a code fence: the number of
code-fence delimiter lines of a text. -/
def fenceCount (t : Text) : ℕ := ((splitLines t).filter isDelimLine).length

/-- `re.match(r'^\s*#{k}\s+(.+?)\s*$', line)` for `k = 1..4` in the order
the source tries them, returning the header level and the stripped capture
group (the two underline patterns of `section_patterns` contain `\n` and
can never match a single line, so they are omitted). -/
def matchHashHeader (line : Text) : Option (ℕ × Text) :=
  let t := trimL line
  let h := (t.takeWhile (fun c => c = '#')).length
  if 1 ≤ h ∧ h ≤ 4 then
    let u := t.drop h
    match u with
    | [] => none
    | c :: _ => if isPyWs c ∧ 2 ≤ u.length then some (h, pyStrip u) else none
  else none

def isHeaderLine (line : Text) : Bool := (matchHashHeader line).isSome

/-- `re.match(r'^\|.*\|$', line)`. -/
def isTableRow (line : Text) : Bool :=
  match line with
  | [] => false
  | c :: rest => c = '|' ∧ rest ≠ [] ∧ rest.getLast? = some '|'

/-- substring search (`sub in s`). -/
def containsSub (sub : Text) : Text → Bool
  | [] => sub.isPrefixOf []
  | c :: rest => sub.isPrefixOf (c :: rest) || containsSub sub rest

/-- A markdown table separator row:
`re.match(r'^\|.*\|$', line) and ('--' in line or ':--' in line or '--:' in line)`
(the last two disjuncts are subsumed by the first). -/
def isTableSep (line : Text) : Bool := isTableRow line && containsSub ['-', '-'] line

/-- `re.match(r'^=+$', line.strip())`. -/
def isEqUnderline (line : Text) : Bool :=
  pyStrip line ≠ [] ∧ (pyStrip line).all (fun c => c = '=')

/-- `re.match(r'^-+$', line.strip())`. -/
def isDashUnderline (line : Text) : Bool :=
  pyStrip line ≠ [] ∧ (pyStrip line).all (fun c => c = '-')

/-! ### `SemanticChunker._chunk_by_semantic_boundaries` -/

def lowerText (t : Text) : Text := t.map Char.toLower

/-- Python `text[a:b]` for non-negative indices. -/
def pySlice (t : Text) (a b : ℕ) : Text := (t.take b).drop a

/-- First loop of `_chunk_by_semantic_boundaries`: slice the text at
consecutive boundaries (last slice runs to the end of the text), strip each
slice, and keep the non-empty ones. -/
def boundarySegments (text : Text) : List ℕ → List Text
  | [] => []
  | [b] =>
    if pyStrip (pySlice text b text.length) = [] then []
    else [pyStrip (pySlice text b text.length)]
  | b1 :: b2 :: rest =>
    (if pyStrip (pySlice text b1 b2) = [] then []
     else [pyStrip (pySlice text b1 b2)]) ++ boundarySegments text (b2 :: rest)

/-- Merge loop of `_chunk_by_semantic_boundaries`: greedily merge adjacent
segments (joined by a blank line) while the sum of the merged lengths stays
within `max_size`; note the source compares `len(current) + len(chunk)`
without counting the two-character `"\n\n"` separator. -/
def mergeSegsAux (maxSize : ℕ) : Text → List Text → List Text
  | current, [] => if current = [] then [] else [current]
  | current, seg :: rest =>
    if current ≠ [] ∧ maxSize < current.length + seg.length then
      current :: mergeSegsAux maxSize seg rest
    else if current = [] then mergeSegsAux maxSize seg rest
    else mergeSegsAux maxSize (current ++ nlnl ++ seg) rest

def mergeSegs (maxSize : ℕ) (segs : List Text) : List Text := mergeSegsAux maxSize [] segs

/-- Chunk-document construction shared by both paths of
`_chunk_by_semantic_boundaries`: `chunk_index`, `chunk_id` and the content
features are written into a copy of the base metadata. -/
def mkChunkDoc (O : Oracles) (baseMeta : Meta) (i : ℕ) (chunk : Text) : PDoc :=
  let md := metaSet baseMeta "chunk_index" (.n i)
  let md := metaSet md "chunk_id"
    (.s (metaGetStr baseMeta "id" "doc" ++ "_chunk_" ++ Nat.repr i))
  let md := metaSetAll md (featItems (O.featuresOf chunk))
  ⟨chunk, md⟩

/-- `SemanticChunker._chunk_by_semantic_boundaries`. -/
def chunkBySemanticBoundaries (O : Oracles) (cfg : ChunkCfg) (doc : PDoc) : List PDoc :=
  let text := doc.pageContent
  let bs := O.boundariesOf text
  if bs = [] then
    let (sz, ov) := O.adjustOf text
    (O.rcts sz ov text).mapIdx (fun i c => mkChunkDoc O doc.metadata i c)
  else
    (mergeSegs cfg.maxSize (boundarySegments text bs)).mapIdx
      (fun i c => mkChunkDoc O doc.metadata i c)

/-! ### `SemanticChunker._chunk_parser_document` -/

structure SecState where
  sections : List Text
  current : List Text
  inCode : Bool

/-- Per-line step of the parser-document section splitter: code-fence lines
toggle the fence state, lines inside a fence never split, section header
lines outside a fence flush the current section. -/
def parserStep (st : SecState) (line : Text) : SecState :=
  if isDelimLine line then
    { st with inCode := !st.inCode, current := st.current ++ [line] }
  else if st.inCode then
    { st with current := st.current ++ [line] }
  else if isHeaderLine line then
    if st.current ≠ [] then
      { sections := st.sections ++ [joinNL st.current], current := [line],
        inCode := st.inCode }
    else { st with current := [line] }
  else { st with current := st.current ++ [line] }

def parserSections (text : Text) : List Text :=
  let st := (splitLines text).foldl parserStep ⟨[], [], false⟩
  if st.current ≠ [] then st.sections ++ [joinNL st.current] else st.sections

/-! ### `SemanticChunker._chunk_use_case_document` -/

/-- `SemanticChunker._chunk_parser_document`. -/
def chunkParserDocument (O : Oracles) (cfg : ChunkCfg) (doc : PDoc) : List PDoc :=
  let text := doc.pageContent
  let baseMeta := doc.metadata
  if text.length ≤ cfg.maxSize then
    [⟨text, metaSetAll baseMeta (featItems (O.featuresOf text))⟩]
  else
    ((parserSections text).mapIdx (fun i sec =>
      if sec.length ≤ cfg.maxSize then
        let md := metaSet baseMeta "chunk_index" (.n i)
        let md := metaSet md "chunk_id"
          (.s (metaGetStr baseMeta "id" "doc" ++ "_section_" ++ Nat.repr i))
        let md := metaSetAll md (featItems (O.featuresOf sec))
        [(⟨sec, md⟩ : PDoc)]
      else
        let secDoc : PDoc := ⟨sec, metaSet baseMeta "section_index" (.n i)⟩
        (chunkBySemanticBoundaries O cfg secDoc).mapIdx (fun j c =>
          ⟨c.pageContent, metaSet c.metadata "chunk_id"
            (.s (metaGetStr baseMeta "id" "doc" ++ "_section_" ++ Nat.repr i
              ++ "_chunk_" ++ Nat.repr j))⟩))).flatten

/-- One section produced by the header-driven splitters, with its heading
path. -/
structure Section where
  text : Text
  header : Text
  level : ℕ
  path : List Text

structure UCState where
  sections : List Section
  current : List Text
  curHeader : Text
  curLevel : ℕ
  stack : List Text

/-- Per-line step of the use-case splitter: only level 1-2 headers start new
sections; the heading path stack is reset at level 1 and truncated at
level 2. -/
def ucStep (st : UCState) (line : Text) : UCState :=
  match matchHashHeader line with
  | some (lvl, htext) =>
    if lvl ≤ 2 then
      let sections :=
        if st.current ≠ [] then
          st.sections ++ [⟨joinNL st.current, st.curHeader, st.curLevel, st.stack⟩]
        else st.sections
      let stack := if lvl = 1 then [htext] else st.stack.take (lvl - 1) ++ [htext]
      ⟨sections, [line], htext, lvl, stack⟩
    else { st with current := st.current ++ [line] }
  | none => { st with current := st.current ++ [line] }

def ucSections (text : Text) : List Section :=
  let st := (splitLines text).foldl ucStep ⟨[], [], [], 0, []⟩
  if st.current ≠ [] then
    st.sections ++ [⟨joinNL st.current, st.curHeader, st.curLevel, st.stack⟩]
  else st.sections

def vendorNames : List String := ["Microsoft", "Cisco", "AWS", "Google", "IBM"]

/-- `exabeam_terms["product"]`. -/
def productNames : List String :=
  ["Advanced Analytics", "Data Lake", "Case Management", "Cloud Security",
   "Entity Analytics", "Threat Hunter"]

def lowerStr (s : String) : String := String.mk (lowerText s.toList)

/-- Vendor/product recovery from the heading path in
`_chunk_use_case_document`. -/
def applyVendorProduct (md0 : Meta) (path : List Text) : Meta :=
  path.foldl (fun md comp =>
    let md :=
      if metaGetStr md "vendor" "" = "" ∧
          vendorNames.any (fun v => containsSub (lowerText v.toList) (lowerText comp)) then
        metaSet md "vendor" (.s (String.mk comp))
      else md
    match productNames.find? (fun p => containsSub (lowerText p.toList) (lowerText comp)) with
    | some p => metaSet md "product" (.s p)
    | none => md) md0

/-- `SemanticChunker._chunk_use_case_document`. -/
def chunkUseCaseDocument (O : Oracles) (cfg : ChunkCfg) (doc : PDoc) : List PDoc :=
  ((ucSections doc.pageContent).mapIdx (fun i sec =>
    if pyStrip sec.text = [] then []
    else
      let md := metaSet doc.metadata "chunk_index" (.n i)
      let md := metaSet md "chunk_id"
        (.s (metaGetStr doc.metadata "id" "doc" ++ "_section_" ++ Nat.repr i))
      let md := metaSet md "section_header" (.s (String.mk sec.header))
      let md := metaSet md "section_level" (.n sec.level)
      let md := metaSet md "section_path"
        (.s (String.intercalate "/" (sec.path.map String.mk)))
      let md := applyVendorProduct md sec.path
      let md := metaSetAll md (featItems (O.featuresOf sec.text))
      if cfg.maxSize < sec.text.length then
        chunkBySemanticBoundaries O cfg ⟨sec.text, md⟩
      else [⟨sec.text, md⟩])).flatten

/-! ### `SemanticChunker._chunk_data_source_by_sections` -/

structure DSState where
  sections : List Section
  current : List Text
  curHeader : Text
  curLevel : ℕ
  stack : List Text
  inTable : Bool
  tbuf : List Text

/-- Header detection of the data-source splitter: the `#`-style patterns,
then (when the current section is non-empty) `=`/`-` underlines, whose
header text is the previous line (which is popped).  Returns the level, the
header text, and the current line list after the potential pop. -/
def dsHeaderOf (st : DSState) (line : Text) : Option (ℕ × Text × List Text) :=
  match matchHashHeader line with
  | some (lvl, htext) => some (lvl, htext, st.current)
  | none =>
    if st.current ≠ [] then
      if isEqUnderline line then
        some (1, pyStrip (st.current.getLast?.getD []), st.current.dropLast)
      else if isDashUnderline line then
        some (2, pyStrip (st.current.getLast?.getD []), st.current.dropLast)
      else none
    else none

def hashes (lvl : ℕ) : Text := List.replicate lvl '#'

/-- Flush the current section (if non-empty), update the heading stack, and
start a new section seeded with the re-rendered `#`-style header line. -/
def dsApplyHeader (st : DSState) (lvl : ℕ) (htext : Text) (current' : List Text) :
    DSState :=
  let sections :=
    if current' ≠ [] then
      st.sections ++ [⟨joinNL current', st.curHeader, st.curLevel, st.stack⟩]
    else st.sections
  let stack :=
    if lvl = 1 then [htext]
    else if lvl ≤ st.stack.length then st.stack.take (lvl - 1) ++ [htext]
    else st.stack ++ [htext]
  ⟨sections, [hashes lvl ++ [' '] ++ htext], htext, lvl, stack, st.inTable, st.tbuf⟩

/-- Per-line step of `_chunk_data_source_by_sections`, including the
markdown-table buffering. -/
def dsStep (st : DSState) (line : Text) : DSState :=
  if isTableSep line then
    if st.tbuf ≠ [] then { st with inTable := true, tbuf := st.tbuf ++ [line] }
    else
      match st.current.getLast? with
      | some last =>
        if isTableRow last then
          { st with inTable := true, current := st.current.dropLast, tbuf := [last, line] }
        else { st with inTable := true }
      | none => { st with inTable := true }
  else if st.inTable ∧ isTableRow line then
    { st with tbuf := st.tbuf ++ [line] }
  else
    let st :=
      if st.inTable then
        { st with inTable := false, current := st.current ++ st.tbuf, tbuf := [] }
      else st
    match dsHeaderOf st line with
    | some (lvl, htext, current') => dsApplyHeader st lvl htext current'
    | none => { st with current := st.current ++ [line] }

def dsSections (text : Text) : List Section :=
  let st := (splitLines text).foldl dsStep ⟨[], [], [], 0, [], false, []⟩
  let current := st.current ++ st.tbuf
  if current ≠ [] then
    st.sections ++ [⟨joinNL current, st.curHeader, st.curLevel, st.stack⟩]
  else st.sections

/-- `re.match(r'^<key>\s*(.+?)$', line, re.IGNORECASE)` followed by
`.strip()` of the capture, for the `vendor:`/`product:` preamble lines
(empty when there is no match or the capture strips to nothing, which the
caller treats identically). -/
def matchKeyVal (key : Text) (line : Text) : Text :=
  if key.isPrefixOf (lowerText line) then pyStrip (line.drop key.length) else []

/-- `_chunk_data_source_fixed_size` (the splitter itself is the external
`RecursiveCharacterTextSplitter` with explicit separators). -/
def chunkDataSourceFixedSize (O : Oracles) (doc : PDoc) : List PDoc :=
  let text := doc.pageContent
  let md0 := metaSet doc.metadata "content_type" (.s "data_source")
  let md0 := metaSet md0 "chunking_method" (.s "fixed_size")
  let md0 := (featItems (O.featuresOf text)).foldl
    (fun m kv => if kv.1 = "content_type" then m else metaSet m kv.1 kv.2) md0
  let chunkSize := min 2000 (max 1000 (text.length / 3))
  let overlap := min 300 (chunkSize / 3)
  ((O.rctsSep chunkSize overlap text).mapIdx (fun i ct =>
    if pyStrip ct = [] then []
    else
      let md := metaSet md0 "chunk_index" (.n i)
      let md := metaSet md "chunk_id"
        (.s (metaGetStr md0 "id" "doc" ++ "_chunk_" ++ Nat.repr i))
      [(⟨ct, md⟩ : PDoc)])).flatten

/-- `SemanticChunker._chunk_data_source_by_sections`. -/
def chunkDataSourceBySections (O : Oracles) (cfg : ChunkCfg) (doc : PDoc) : List PDoc :=
  let text := doc.pageContent
  let baseFeats := O.featuresOf text
  let lines := splitLines text
  let vendor := if 3 < lines.length then matchKeyVal ("vendor:".toList) (lines.getD 0 []) else []
  let product := if 3 < lines.length then matchKeyVal ("product:".toList) (lines.getD 2 []) else []
  let baseMeta := if vendor ≠ [] then metaSet doc.metadata "vendor" (.s (String.mk vendor)) else doc.metadata
  let baseMeta := if product ≠ [] then metaSet baseMeta "product" (.s (String.mk product)) else baseMeta
  let sections := dsSections text
  if sections.length ≤ 1 ∧ (sections.headD ⟨[], [], 0, []⟩).header = [] then
    chunkDataSourceFixedSize O doc
  else
    (sections.mapIdx (fun i sec =>
      if pyStrip sec.text = [] then []
      else
        let md := metaSet baseMeta "chunk_index" (.n i)
        let md := metaSet md "chunk_id"
          (.s (metaGetStr baseMeta "id" "doc" ++ "_section_" ++ Nat.repr i))
        let md := metaSet md "section_header" (.s (String.mk sec.header))
        let md := metaSet md "section_level" (.n sec.level)
        let md := metaSet md "content_type" (.s "data_source")
        let md := (featItems baseFeats).foldl
          (fun m kv => if metaHas m kv.1 then m else metaSet m kv.1 kv.2) md
        let md := metaSet md "section_path"
          (.s (String.intercalate "/" (sec.path.map String.mk)))
        let md :=
          if sec.header ≠ [] then
            let hl := lowerText sec.header
            if containsSub ("event".toList) hl ∨ containsSub ("type".toList) hl then
              metaSet md "content_type" (.s "event_type")
            else if containsSub ("parser".toList) hl ∨ containsSub ("parsing".toList) hl then
              metaSet md "content_type" (.s "parser")
            else if containsSub ("configuration".toList) hl ∨ containsSub ("setup".toList) hl then
              metaSet md "content_type" (.s "configuration")
            else if containsSub ("vendor".toList) hl ∨ containsSub ("product".toList) hl then
              metaSet md "content_type" (.s "metadata")
            else if containsSub ("mitre".toList) hl ∨ containsSub ("att&ck".toList) hl then
              metaSet md "content_type" (.s "mitre")
            else md
          else md
        let md := (featItems (O.featuresOf sec.text)).foldl
          (fun m kv =>
            if kv.1 = "content_type" ∧ metaHas m "content_type" then m
            else metaSet m kv.1 kv.2) md
        if cfg.maxSize < sec.text.length then
          chunkBySemanticBoundaries O cfg ⟨sec.text, md⟩
        else [(⟨sec.text, md⟩ : PDoc)])).flatten

/-- `SemanticChunker._chunk_table_heavy_document`. -/
def chunkTableHeavy (O : Oracles) (doc : PDoc) : List PDoc :=
  let text := doc.pageContent
  let md0 := metaSet doc.metadata "content_type" (.s "data_source")
  let md0 := metaSet md0 "table_heavy" (.b true)
  let md0 := metaSetAll md0 (featItems (O.featuresOf text))
  let step := fun (acc : List Text × List Text × ℕ × Bool) (line : Text) =>
    let (chunks, cur, tables, inT) := acc
    let (inT, tables) := if isTableSep line then (true, tables + 1) else (inT, tables)
    let cur := cur ++ [line]
    let inT := if inT ∧ ¬ isTableRow line ∧ pyStrip line ≠ [] then false else inT
    if (2 ≤ tables ∨ 50 < cur.length) ∧ ¬ inT then
      (chunks ++ [joinNL cur], ([] : List Text), 0, inT)
    else (chunks, cur, tables, inT)
  let res := (splitLines text).foldl step ([], [], 0, false)
  let tchunks := if res.2.1 ≠ [] then res.1 ++ [joinNL res.2.1] else res.1
  (tchunks.mapIdx (fun i ct =>
    if pyStrip ct = [] then []
    else
      let md := metaSet md0 "chunk_index" (.n i)
      let md := metaSet md "chunk_id"
        (.s (metaGetStr md0 "id" "doc" ++ "_table_chunk_" ++ Nat.repr i))
      let md := (featItems (O.featuresOf ct)).foldl
        (fun m kv => if kv.1 = "content_type" then m else metaSet m kv.1 kv.2) md
      [(⟨ct, md⟩ : PDoc)])).flatten

/-- `SemanticChunker._chunk_data_source_document`. -/
def chunkDataSourceDocument (O : Oracles) (cfg : ChunkCfg) (doc : PDoc) : List PDoc :=
  let text := doc.pageContent
  let md := doc.metadata
  let isDS :=
    containsSub ("data_source".toList) (lowerText (metaGetStr md "doc_type" "").toList) ∨
    containsSub ("ds_".toList) (lowerText (metaGetStr md "file_name" "").toList) ∨
    containsSub ("vendor:".toList) (lowerText text) ∨
    containsSub ("product:".toList) (lowerText text)
  if ¬ isDS then chunkBySemanticBoundaries O cfg doc
  else
    let tableLines := ((splitLines text).filter isTableRow).length
    let totalLines := (splitLines text).length
    if 0 < tableLines ∧ mkRat 3 10 < mkRat tableLines totalLines then
      chunkTableHeavy O doc
    else if text.length ≤ cfg.maxSize then
      let md1 := metaSet md "content_type" (.s "data_source")
      let md1 := metaSetAll md1 (featItems (O.featuresOf text))
      [⟨text, md1⟩]
    else
      let res := chunkDataSourceBySections O cfg doc
      if res.isEmpty then chunkDataSourceFixedSize O doc else res

/-- `SemanticChunker.chunk_document`: empty-document guard, then dispatch on
the document category. -/
def chunkDocument (O : Oracles) (cfg : ChunkCfg) (doc : PDoc) : List PDoc :=
  if pyStrip doc.pageContent = [] then []
  else
    let docType := metaGetStr doc.metadata "doc_type" ""
    let ctype := (metaGetStr doc.metadata "content_type" "").toList
    if docType = "parser" ∨ containsSub ("parser".toList) ctype then
      chunkParserDocument O cfg doc
    else if docType = "use_case" ∨ containsSub ("use_case".toList) ctype then
      chunkUseCaseDocument O cfg doc
    else if docType = "data_source" ∨ containsSub ("data_source".toList) ctype then
      chunkDataSourceDocument O cfg doc
    else chunkBySemanticBoundaries O cfg doc

/-! ### `DocumentAnalyzer.classify_content` (`src/src/data_processing/document_analyzer.py`)

The indicator patterns are literal words (or the two-word phrase
`use case`) wrapped in `\b` word boundaries and matched case-insensitively,
so they are embedded as whole-word occurrence counting.  Python's `round(x, 2)`
is modelled as exact rational rounding of `100 x` half-to-even. -/

def isWordChar (c : Char) : Bool := c.isAlpha || c.isDigit || c = '_'

/-- Does `pat` occur at position `i` of `low` with word boundaries on both
sides (`low` and `pat` already lowercased)? -/
def wordMatchAt (low pat : Text) (i : ℕ) : Bool :=
  pat.isPrefixOf (low.drop i)
  && (i == 0 || !isWordChar (low.getD (i - 1) ' '))
  && !isWordChar (low.getD (i + pat.length) ' ')

/-- `len(re.findall(r'\b<pat>\b', text, re.IGNORECASE))` for a literal
word/phrase pattern (such patterns cannot produce overlapping matches, so
the number of matching positions is the number of matches). -/
def countWord (pat : String) (text : Text) : ℕ :=
  ((List.range (text.length + 1)).filter
    (fun i => wordMatchAt (lowerText text) (lowerText pat.toList) i)).length

/-- The six content categories of `classify_content`, in dict insertion
order. -/
inductive CCat where
  | overview | technical | configuration | parserC | useCase | reference
deriving DecidableEq, Repr

def ccatName : CCat → String
  | .overview => "overview"
  | .technical => "technical"
  | .configuration => "configuration"
  | .parserC => "parser"
  | .useCase => "use_case"
  | .reference => "reference"

def allCats : List CCat :=
  [.overview, .technical, .configuration, .parserC, .useCase, .reference]

/-- The per-category indicator word lists of `classify_content`. -/
def ccatWords : CCat → List String
  | .overview => ["overview", "introduction", "summary", "description", "about"]
  | .technical => ["technical", "implementation", "architecture", "design", "specification"]
  | .configuration => ["configuration", "setup", "install", "deploy", "settings"]
  | .parserC => ["parser", "parsing", "normalization", "extract", "transform"]
  | .useCase => ["use case", "scenario", "detection", "alert", "threat"]
  | .reference => ["reference", "appendix", "glossary", "documentation", "manual"]

/-- The `(category, pattern)` pairs in the order the source's six counting
loops process them. -/
def indicatorPairs : List (CCat × String) :=
  (allCats.map (fun c => (ccatWords c).map (fun w => (c, w)))).flatten

/-- Round `a / b` (with `b > 0`) to the nearest integer, ties to even. -/
def halfEvenNat (a b : ℕ) : ℕ :=
  let q := a / b
  let r := a % b
  if 2 * r < b then q
  else if b < 2 * r then q + 1
  else if q % 2 = 0 then q else q + 1

/-- `round(count / total, 2)` as an exact rational. -/
def normScore (count total : ℕ) : ℚ := mkRat (halfEvenNat (100 * count) total) 100

/-- The accumulation loops of `classify_content`: per-category indicator
counts and the running total, updated one `findall` at a time. -/
def classifyCounts (text : Text) : (CCat → ℕ) × ℕ :=
  indicatorPairs.foldl (fun acc cw =>
    let n := countWord cw.2 text
    (fun c => if c = cw.1 then acc.1 c + n else acc.1 c, acc.2 + n))
    (fun _ => 0, 0)

def updateCat (f : CCat → ℚ) (c0 : CCat) (v : ℚ) : CCat → ℚ :=
  fun c => if c = c0 then v else f c

/-- The scores after the normalization step of `classify_content` (raw
counts when no indicator matched, since the division is skipped). -/
def classifyBase (text : Text) (c : CCat) : ℚ :=
  if 0 < (classifyCounts text).2 then
    normScore ((classifyCounts text).1 c) (classifyCounts text).2
  else ((classifyCounts text).1 c : ℚ)

/-- `DocumentAnalyzer.classify_content`. -/
def classifyContent (text : Text) : CCat → ℚ :=
  let base := classifyBase text
  if allCats.all (fun c => decide (base c < mkRat 2 10)) then
    if 0 < countWord "parser" text then updateCat base .parserC (mkRat 6 10)
    else if 0 < countWord "use case" text then updateCat base .useCase (mkRat 6 10)
    else if 0 < countWord "configuration" text then updateCat base .configuration (mkRat 6 10)
    else if 0 < countWord "overview" text then updateCat base .overview (mkRat 6 10)
    else updateCat base .technical (mkRat 4 10)
  else base

/-! Specification-side rendering of claim C8: count the indicator
occurrences per category, normalize to proportions of the total, and on
all-low confidence apply the priority fallback
parser > use_case > configuration > overview > technical. -/

def catCount (text : Text) (c : CCat) : ℕ :=
  ((ccatWords c).map (fun w => countWord w text)).sum

def totalIndicators (text : Text) : ℕ := (allCats.map (catCount text)).sum

def specBase (text : Text) (c : CCat) : ℚ :=
  if 0 < totalIndicators text then normScore (catCount text c) (totalIndicators text)
  else 0

/-- The deterministic fallback priority of the claim, as an ordered table of
strong keywords. -/
def fallbackPriority : List (CCat × String) :=
  [(.parserC, "parser"), (.useCase, "use case"),
   (.configuration, "configuration"), (.overview, "overview")]

/-- Claim C8's description of `classify_content`, written from the spec's
words. -/
def classifyContentSpec (text : Text) : CCat → ℚ :=
  let base := specBase text
  if ∀ c ∈ allCats, base c < mkRat 2 10 then
    match fallbackPriority.find? (fun p => decide (0 < countWord p.2 text)) with
    | some p => updateCat base p.1 (mkRat 6 10)
    | none => updateCat base .technical (mkRat 4 10)
  else base

/-! ### `DocumentAnalyzer.enrich_document` / `analyze_documents`

Entity and relationship extraction are regex/NLTK analyses whose results
are only stored into metadata; they are oracle parameters here, while
classification, the `primary_content_type` choice, and cross-referencing
are embedded. -/

structure AnalyzerOracles where
  /-- `extract_entities`: category name to list of `(name, type)` entries. -/
  entitiesOf : Text → List (String × List (String × String))
  /-- `extract_relationships` (already-encoded relationship dicts). -/
  relationshipsOf : Text → List (String × List (String × String)) → List MVal

def encodeEntity (e : String × String) : MVal :=
  .obj [("name", .s e.1), ("type", .s e.2)]

def encodeEntities (l : List (String × String)) : MVal := .arr (l.map encodeEntity)

def encodeCls (f : CCat → ℚ) : MVal :=
  .obj (allCats.map (fun c => (ccatName c, .q (f c))))

/-- `max(classifications.items(), key=lambda x: x[1])[0]`: the first
category of maximal score in dict order. -/
def primaryContentType (f : CCat → ℚ) : CCat :=
  allCats.foldl (fun best c => if f best < f c then c else best) .overview

/-- `DocumentAnalyzer.enrich_document`. -/
def enrichDocument (A : AnalyzerOracles) (doc : PDoc) : PDoc :=
  if pyStrip doc.pageContent = [] then doc
  else
    let ents := A.entitiesOf doc.pageContent
    let md := ents.foldl (fun m cl =>
      if cl.2 ≠ [] then metaSet m ("extracted_" ++ cl.1) (encodeEntities cl.2)
      else m) doc.metadata
    let rels := A.relationshipsOf doc.pageContent ents
    let md := if ¬ rels.isEmpty then metaSet md "relationships" (.arr rels) else md
    let cls := classifyContent doc.pageContent
    let md := metaSet md "content_classifications" (encodeCls cls)
    let pc := primaryContentType cls
    let md :=
      if mkRat 3 10 ≤ cls pc then metaSet md "primary_content_type" (.s (ccatName pc))
      else md
    ⟨doc.pageContent, md⟩

/-- Decode an `extracted_*` entity list back out of metadata. -/
def decodeEntities (v : Option MVal) : List (String × String) :=
  match v with
  | some (.arr items) =>
    items.filterMap (fun it =>
      match it with
      | .obj kvs =>
        match metaGet kvs "name", metaGet kvs "type" with
        | some (.s nm), some (.s ty) => some (nm, ty)
        | _, _ => none
      | _ => none)
  | _ => []

/-- The `(key_type, lowercased entity name)` pairs one chunk is indexed
under in `_cross_reference_documents`. -/
def docEntityKeys (m : Meta) : List (String × String) :=
  (decodeEntities (metaGet m "extracted_data_sources")).map
    (fun e => ("data_source", lowerStr e.1)) ++
  (decodeEntities (metaGet m "extracted_parsers")).map
    (fun e => ("parser", lowerStr e.1)) ++
  (decodeEntities (metaGet m "extracted_use_cases")).map
    (fun e => ("use_case", lowerStr e.1)) ++
  ((decodeEntities (metaGet m "extracted_mitre")).filter
    (fun e => e.2 = "technique")).map (fun e => ("mitre_technique", lowerStr e.1))

/-- The set of related chunk indices (chunks sharing at least one entity
key, self excluded), in ascending order. -/
def relatedIndices (metas : List Meta) (i : ℕ) (mi : Meta) : List ℕ :=
  (List.range metas.length).filter (fun j =>
    j ≠ i ∧ (docEntityKeys mi).any (fun k => (docEntityKeys (metas.getD j [])).contains k))

/-- `DocumentAnalyzer._cross_reference_documents`. -/
def crossReference (docs : List PDoc) : List PDoc :=
  let metas := docs.map (·.metadata)
  docs.mapIdx (fun i d =>
    let rel := relatedIndices metas i d.metadata
    if rel ≠ [] then
      ⟨d.pageContent, metaSet d.metadata "related_documents"
        (.arr (rel.map (fun j =>
          .obj [("id", .s (metaGetStr (metas.getD j []) "chunk_id" ("doc_" ++ Nat.repr j))),
                ("similarity", .s "entity"),
                ("primary_content_type",
                  .s (metaGetStr (metas.getD j []) "primary_content_type" "unknown"))])))⟩
    else d)

/-- `DocumentAnalyzer.analyze_documents`. -/
def analyzeDocuments (A : AnalyzerOracles) (docs : List PDoc) : List PDoc :=
  crossReference (docs.map (enrichDocument A))

/-! ### `SemanticDocumentChunker.split_documents`
(`src/src/data_processing/semantic_document_chunker.py`) -/

def criticalFields : List String :=
  ["doc_type", "content_type", "content_section", "source_path",
   "id", "title", "vendor", "product", "mitre_tactics", "mitre_techniques"]

/-- Index of the first occurrence of `sub` in `t`. -/
def findSubIdx (sub : Text) : Text → Option ℕ
  | [] => if sub.isPrefixOf [] then some 0 else none
  | c :: rest =>
    if sub.isPrefixOf (c :: rest) then some 0
    else (findSubIdx sub rest).map (· + 1)

def splitTailAux (sub : Text) : Text → ℕ → Text
  | t, 0 => t
  | t, fuel + 1 =>
    match findSubIdx sub t with
    | none => t
    | some i => splitTailAux sub (t.drop (i + sub.length)) fuel

/-- `t.split(sub)[-1]`: the suffix after the last (left-to-right,
non-overlapping) occurrence of `sub`. -/
def splitTailAfter (sub t : Text) : Text := splitTailAux sub t t.length

/-- `int(s)` for the shapes arising from `chunk_id` suffixes: surrounding
whitespace around a non-empty digit string; anything else raises
`ValueError`. -/
def pyParseNat (t : Text) : Option ℕ :=
  let s := pyStrip t
  if s ≠ [] ∧ s.all Char.isDigit then
    some (s.foldl (fun acc c => acc * 10 + (c.toNat - 48)) 0)
  else none

/-- `SemanticDocumentChunker._ensure_metadata_compatibility`. -/
def ensureMetadataCompat (srcMeta : Meta) (chunkMeta : Meta) : Meta :=
  let md := criticalFields.foldl (fun m f =>
    match metaGet srcMeta f with
    | some v => if metaHas m f then m else metaSet m f v
    | none => m) chunkMeta
  if ¬ metaHas md "chunk_index" ∧ metaHas md "chunk_id" then
    match metaGet md "chunk_id" with
    | some (.s cid) =>
      if containsSub ("_chunk_".toList) cid.toList then
        match pyParseNat (splitTailAfter ("_chunk_".toList) cid.toList) with
        | some ix => metaSet md "chunk_index" (.n ix)
        | none => metaSet md "chunk_index" (.n 0)
      else md
    | _ => md
  else md

/-- `SemanticDocumentChunker.split_documents`: skip empty documents, chunk,
backfill `chunk_id` where the chunker did not set one, ensure metadata
compatibility, then run the document analyzer over the chunks. -/
def splitDocuments (A : AnalyzerOracles) (O : Oracles) (cfg : ChunkCfg)
    (docs : List PDoc) : List PDoc :=
  (docs.map (fun doc =>
    if pyStrip doc.pageContent = [] then []
    else
      let chunks := chunkDocument O cfg doc
      let chunks := chunks.mapIdx (fun i c =>
        let md :=
          if metaHas c.metadata "chunk_id" then c.metadata
          else metaSet c.metadata "chunk_id"
            (.s (metaGetStr doc.metadata "id" "doc" ++ "_chunk_" ++ Nat.repr i))
        (⟨c.pageContent, ensureMetadataCompat doc.metadata md⟩ : PDoc))
      if chunks.isEmpty then chunks else analyzeDocuments A chunks)).flatten

/-- The conclusion of claim C10, as a predicate. -/
def allScoresAtLeastHalf (l : List Scored) : Prop := ∀ p ∈ l, mkRat 5 10 ≤ p.2

def rd (s t : String) : RDoc := ⟨s, some t⟩

def w10docs : List RDoc := [rd "d1" "overview", rd "d2" "parser", rd "d3" "rule", rd "d4" "model"]

def w10score : RDoc → ℚ := fun _ => mkRat 3 4

def w4docs : List RDoc :=
  [rd "d1" "overview", rd "d2" "parser", rd "d3" "rule", rd "d4" "model", rd "d5" "reference"]

def w4score : RDoc → ℚ := fun d => if d.pageContent = "d1" then mkRat 4 5 else mkRat 3 5

/-- Index of the first candidate of document type `k`. -/
def firstIdxOfType (L : List Scored) (k : String) : Option ℕ :=
  L.findIdx? (fun p => p.1.typeKey = k)

/-- Index of the second candidate of document type `k`, if any. -/
def idxOfSecondOfType (L : List Scored) (k : String) : Option ℕ :=
  match L.findIdx? (fun p => p.1.typeKey = k) with
  | none => none
  | some i =>
    match (L.drop (i + 1)).findIdx? (fun p => p.1.typeKey = k) with
    | none => none
    | some j => some (i + 1 + j)

/-- The ordering property claimed in Scenario 5: every type of `ks` appears
in `L` strictly before the second candidate of type `top` does. -/
def allTypesBeforeSecondOf (L : List Scored) (top : String) (ks : List String) : Bool :=
  match idxOfSecondOfType L top with
  | none => true
  | some i =>
    ks.all fun k =>
      match firstIdxOfType L k with
      | some j => decide (j < i)
      | none => false

def c5scored : List Scored :=
  [(rd "a1" "overview", 1), (rd "a2" "overview", mkRat 9 10),
   (rd "b1" "parser", mkRat 3 5), (rd "c1" "rule", mkRat 3 5), (rd "d1" "model", mkRat 3 5),
   (rd "a3" "overview", mkRat 2 5), (rd "a4" "overview", mkRat 2 5),
   (rd "b2" "parser", mkRat 2 5), (rd "c2" "rule", mkRat 2 5), (rd "d2" "model", mkRat 2 5)]

def w5scored : List Scored :=
  [(rd "x1" "overview", mkRat 7 10), (rd "x2" "parser", mkRat 6 10),
   (rd "x3" "rule", mkRat 6 10), (rd "x4" "model", mkRat 6 10)]

/-- The concatenated non-whitespace content of a list of segments. -/
def nwJoin (ls : List Text) : Text := (ls.map nonWS).flatten

/-! ### Concrete instantiations used by witnesses and counterexamples

The oracle fields instantiated below only flow into chunk metadata or into
branches the concrete inputs do not reach; the chunk texts and ids computed
in the counterexamples do not depend on them. -/

def oracles0 : Oracles :=
  ⟨fun _ => [], fun _ => (0, 0), fun _ _ _ => [], fun _ _ _ => [], fun _ => defaultFeatures⟩

def analyzer0 : AnalyzerOracles := ⟨fun _ => [], fun _ _ => []⟩

/-- Witness oracle: one boundary at offset 0. -/
def oraclesW : Oracles :=
  ⟨fun _ => [0], fun _ => (0, 0), fun _ _ _ => [], fun _ _ _ => [], fun _ => defaultFeatures⟩

def cwDoc : PDoc := ⟨"hello world".toList, []⟩

/-- A small chunker configuration (`SemanticChunker(min_chunk_size=10,
max_chunk_size=60, chunk_overlap=5)`); the counterexamples use it so that
the violating documents stay small. -/
def smallCfg : ChunkCfg := ⟨10, 60, 5⟩

def emptyDoc : PDoc := ⟨[' ', '\n', ' '], []⟩

def pLine (n : ℕ) (c : Char) : Text := List.replicate n c

/-- C1 counterexample input: a data-source document (77 characters, longer
than `smallCfg`'s max of 60, so it is section-chunked) whose second section
header is underlined (`MyHeader` over `======`); the section splitter
rewrites it to `# MyHeader`, inserting a `#` that occurs nowhere in the
source. -/
def c1doc : PDoc :=
  ⟨joinNL [pLine 30 'a', "MyHeader".toList, pLine 6 '=', pLine 30 'b'],
   [("doc_type", .s "data_source")]⟩

def c1texts : List Text := (chunkDocument oracles0 smallCfg c1doc).map (·.pageContent)

/-- C2 counterexample input: a table-heavy data-source document (6 of 12
lines are table rows) whose first emitted chunk, bounded only by the
two-tables / fifty-lines rule, is 83 characters long — over `smallCfg`'s
max of 60. -/
def c2doc : PDoc :=
  ⟨joinNL ([pLine 10 'a', pLine 10 'a',
    "|h|h|".toList, "|--|--|".toList, "|a|b|".toList, pLine 10 'a',
    "|h|h|".toList, "|--|--|".toList, "|c|d|".toList, pLine 10 'a',
    pLine 10 'a', pLine 10 'a']),
   [("doc_type", .s "data_source")]⟩

def c2out : List PDoc := chunkDocument oracles0 smallCfg c2doc

/-- C3 counterexample input: a parser document whose single code fence is
unterminated; it is kept whole, producing one chunk with one (odd) fence
delimiter line. -/
def c3doc : PDoc := ⟨"```\nsome code".toList, [("doc_type", .s "parser")]⟩

/-- C3 witness input: a parser document with balanced fences. -/
def c3wDoc : PDoc :=
  ⟨"# A\n```\ncode\n```\n# B\ntext".toList, [("doc_type", .s "parser")]⟩

/-- C6 counterexample input: a parser document (71 characters, over
`smallCfg`'s max of 60) starting with two blank lines before its first
header; the section splitter flushes them as a whitespace-only section,
which is emitted as a chunk. -/
def c6doc : PDoc :=
  ⟨['\n', '\n'] ++ "# A\n".toList ++ pLine 30 'a' ++ "\n# B\n".toList ++ pLine 30 'b',
   [("doc_type", .s "parser")]⟩

/-- C7 counterexample inputs: two small parser documents with no `id`
metadata; both are kept whole and both receive `chunk_id` `doc_chunk_0`. -/
def c7docA : PDoc := ⟨"parser doc one".toList, [("doc_type", .s "parser")]⟩

def c7docB : PDoc := ⟨"parser doc two".toList, [("doc_type", .s "parser")]⟩

def c7ids : List String :=
  (splitDocuments analyzer0 oracles0 defaultCfg [c7docA, c7docB]).map
    (fun c => metaGetStr c.metadata "chunk_id" "")

/-- All chunks of `out` have non-whitespace content in order inside `src`. -/
def nonWSContained (out : List PDoc) (src : Text) : Prop :=
  ∀ t ∈ out.map (·.pageContent), List.Sublist (nonWS t) (nonWS src)

/-- All chunks of `out` are single boundary segments or fit in
`maxSize + 2`. -/
def sizeClassified (out : List PDoc) (segs : List Text) (maxSize : ℕ) : Prop :=
  ∀ t ∈ out.map (·.pageContent), t ∈ segs ∨ t.length ≤ maxSize + 2

/-- No chunk of `out` is empty or whitespace-only. -/
def noBlankChunks (out : List PDoc) : Prop :=
  ∀ t ∈ out.map (·.pageContent), pyStrip t ≠ []

/-- Every chunk of `out` contains an even number of fence delimiter
lines. -/
def evenFenceChunks (out : List PDoc) : Prop :=
  ∀ t ∈ out.map (·.pageContent), Even (fenceCount t)

/-- Number of code-fence delimiter lines in a line list. -/
def countDelims (ls : List Text) : ℕ := (ls.filter isDelimLine).length

/-- Invariant of the parser-document section splitter: flushed sections
have evenly many fence-delimiter lines, the parity of the pending section's
delimiter lines is the fence state, and pending lines are `'\n'`-free. -/
def ParserInv (st : SecState) : Prop :=
  (∀ s ∈ st.sections, Even (fenceCount s)) ∧
  (Even (countDelims st.current) ↔ st.inCode = false) ∧
  (∀ l ∈ st.current, '\n' ∉ l)

def totalDelims (st : SecState) : ℕ :=
  (st.sections.map fenceCount).sum + countDelims st.current

/-! Basic membership facts about the reranker pipeline. -/

theorem mem_sortDesc {p : Scored} {l : List Scored} :
    p ∈ sortDesc l ↔ p ∈ l :=
  (List.perm_insertionSort scGE l).mem_iff

theorem mem_of_mem_topPerType {p : Scored} {l : List Scored}
    (h : p ∈ topPerType l) : p ∈ l := by
  rcases List.mem_filterMap.mp h with ⟨k, -, hk⟩
  rcases Option.bind_eq_some.mp hk with ⟨top, htop, hif⟩
  by_cases hsc : mkRat 6 10 ≤ top.2
  · rw [if_pos hsc] at hif
    cases hif
    have hmem : p ∈ sortDesc (l.filter (fun q => q.1.typeKey = k)) :=
      List.mem_of_mem_head? htop
    exact List.mem_of_mem_filter (mem_sortDesc.mp hmem)
  · rw [if_neg hsc] at hif; exact absurd hif (by simp)

theorem score_of_mem_topPerType {p : Scored} {l : List Scored}
    (h : p ∈ topPerType l) : mkRat 6 10 ≤ p.2 := by
  rcases List.mem_filterMap.mp h with ⟨k, -, hk⟩
  rcases Option.bind_eq_some.mp hk with ⟨top, htop, hif⟩
  by_cases hsc : mkRat 6 10 ≤ top.2
  · rw [if_pos hsc] at hif; cases hif; exact hsc
  · rw [if_neg hsc] at hif; exact absurd hif (by simp)

theorem mem_of_mem_diversify {p : Scored} {l : List Scored}
    (h : p ∈ diversifyResults l) : p ∈ l := by
  unfold diversifyResults at h
  by_cases hlen : l.length ≤ 3
  · rwa [if_pos hlen] at h
  · rw [if_neg hlen] at h
    simp only [] at h
    rcases List.mem_append.mp (mem_sortDesc.mp h) with h1 | h2
    · exact mem_of_mem_topPerType h1
    · exact List.mem_of_mem_filter (mem_sortDesc.mp (List.mem_of_mem_filter h2))

/-- Every entry of a diversified list (when the input has more than three
entries) scores at least 0.5: the per-type champions need 0.6, the fill
entries need 0.5. -/
theorem diversify_score_ge {p : Scored} {l : List Scored}
    (hlen : 3 < l.length) (h : p ∈ diversifyResults l) : mkRat 5 10 ≤ p.2 := by
  unfold diversifyResults at h
  rw [if_neg (by omega)] at h
  simp only [] at h
  rcases List.mem_append.mp (mem_sortDesc.mp h) with h1 | h2
  · exact le_trans (by norm_num) (score_of_mem_topPerType h1)
  · exact of_decide_eq_true (List.mem_filter.mp h2).2

/-! Helper lemmas for the reranker theorems. -/

theorem mem_foldl_firstKeys (l : List Scored) (acc : List String) (a : String)
    (ha : a ∈ acc) :
    a ∈ l.foldl (fun acc p => if p.1.typeKey ∈ acc then acc else acc ++ [p.1.typeKey]) acc := by
  induction l generalizing acc with
  | nil => exact ha
  | cons q l ih =>
    simp only [List.foldl_cons]
    by_cases hq : q.1.typeKey ∈ acc
    · rw [if_pos hq]; exact ih acc ha
    · rw [if_neg hq]; exact ih _ (List.mem_append_left _ ha)

theorem typeKey_mem_foldl {p : Scored} (l : List Scored) (acc : List String)
    (h : p ∈ l) :
    p.1.typeKey ∈
      l.foldl (fun acc q => if q.1.typeKey ∈ acc then acc else acc ++ [q.1.typeKey]) acc := by
  induction l generalizing acc with
  | nil => cases h
  | cons q l ih =>
    simp only [List.foldl_cons]
    rcases List.mem_cons.mp h with rfl | hmem
    · by_cases hq : p.1.typeKey ∈ acc
      · rw [if_pos hq]; exact mem_foldl_firstKeys l acc _ hq
      · rw [if_neg hq]
        exact mem_foldl_firstKeys l _ _ (List.mem_append_right _ (List.mem_singleton.mpr rfl))
    · by_cases hq : q.1.typeKey ∈ acc
      · rw [if_pos hq]; exact ih acc hmem
      · rw [if_neg hq]; exact ih _ hmem

theorem typeKey_mem_firstKeys {p : Scored} {l : List Scored} (h : p ∈ l) :
    p.1.typeKey ∈ firstKeys l :=
  typeKey_mem_foldl l [] h

/-! ### Claim C10 -/

theorem head_score_max {t : Scored} {l : List Scored} {p : Scored}
    (hhead : (sortDesc l).head? = some t) (hp : p ∈ l) : p.2 ≤ t.2 := by
  have hsorted : List.Sorted scGE (sortDesc l) := List.sorted_insertionSort scGE l
  have hp' : p ∈ sortDesc l := mem_sortDesc.mpr hp
  cases hs : sortDesc l with
  | nil => rw [hs] at hp'; cases hp'
  | cons a rest =>
    rw [hs] at hhead hp' hsorted
    cases Option.some.inj hhead
    rcases List.mem_cons.mp hp' with rfl | hrest
    · exact le_refl _
    · exact List.rel_of_sorted_cons hsorted p hrest

/-- C10: for every query (abstracted into the scoring function) and every
candidate list with more than 3 candidates, `rerank_with_scores` never
returns a candidate scoring below 0.5, whatever the caller-supplied
threshold (including 0.0): sub-0.5 candidates are removed by
`diversify_results`. -/
theorem rerankWithScores_no_low_scores (score : RDoc → ℚ) (docs : List RDoc)
    (threshold : ℚ) (hlen : 3 < docs.length) :
    allScoresAtLeastHalf (rerankWithScores score docs threshold) := by
  intro p hp
  unfold rerankWithScores at hp
  rw [if_neg (by intro h; subst h; simp at hlen)] at hp
  simp only [] at hp
  have h1 := List.mem_of_mem_filter (mem_sortDesc.mp hp)
  exact diversify_score_ge (by simpa using hlen) h1

/-! ### Claim C4 -/

theorem rerankWithScores_no_low_scores_witness :
    allScoresAtLeastHalf (rerankWithScores w10score w10docs 0) :=
  rerankWithScores_no_low_scores w10score w10docs 0 (by decide)

/-- C4: `rerank` drops diversified candidates scoring below the threshold,
but when fewer than 3 survive it ignores the threshold and returns the top
3 candidates by score; with 5 candidates all scoring below a 0.9 threshold
the result has length exactly 3; and `rerank` never returns an empty list
when candidates exist. -/
theorem rerank_threshold_fallback (score : RDoc → ℚ) (docs : List RDoc)
    (threshold : ℚ) :
    (3 ≤ ((diversifyResults (docs.map fun d => (d, score d))).filter
        (fun p => threshold ≤ p.2)).length →
      rerank score docs threshold =
        ((diversifyResults (docs.map fun d => (d, score d))).filter
          (fun p => threshold ≤ p.2)).map (·.1)) ∧
    (docs ≠ [] →
      ((diversifyResults (docs.map fun d => (d, score d))).filter
        (fun p => threshold ≤ p.2)).length < 3 →
      rerank score docs threshold =
        ((sortDesc (docs.map fun d => (d, score d))).take 3).map (·.1)) ∧
    (docs.length = 5 → (∀ d ∈ docs, score d < mkRat 9 10) →
      (rerank score docs (mkRat 9 10)).length = 3) ∧
    (docs ≠ [] → rerank score docs threshold ≠ []) := by
  have hscored : docs ≠ [] → (docs.map fun d => (d, score d)) ≠ [] := by
    intro h hmap
    exact h (List.map_eq_nil_iff.mp hmap)
  refine ⟨?_, ?_, ?_, ?_⟩
  · intro h3
    have hdocs : docs ≠ [] := by
      intro h; subst h; simp [diversifyResults] at h3
    unfold rerank
    rw [if_neg hdocs]
    simp only []
    rw [if_neg (fun hc => by
      have hlt := hc.1
      simp only [List.length_map] at hlt
      omega)]
  · intro hdocs hlt
    unfold rerank
    rw [if_neg hdocs]
    simp only []
    rw [if_pos ⟨by simpa only [List.length_map] using hlt, hscored hdocs⟩]
  · intro hlen hall
    have hdocs : docs ≠ [] := by intro h; subst h; simp at hlen
    have hfil : ((diversifyResults (docs.map fun d => (d, score d))).filter
        (fun p => mkRat 9 10 ≤ p.2)) = [] := by
      rw [List.filter_eq_nil_iff]
      intro p hp
      rcases List.mem_map.mp (mem_of_mem_diversify hp) with ⟨d, hd, rfl⟩
      simpa using not_le.mpr (hall d hd)
    unfold rerank
    rw [if_neg hdocs]
    simp only []
    rw [hfil]
    rw [if_pos ⟨by simp, hscored hdocs⟩]
    have hslen : (sortDesc (docs.map fun d => (d, score d))).length = 5 := by
      rw [sortDesc, (List.perm_insertionSort scGE _).length_eq, List.length_map, hlen]
    simp [List.length_map, List.length_take, hslen]
  · intro hdocs
    unfold rerank
    rw [if_neg hdocs]
    simp only []
    by_cases hc : (((diversifyResults (docs.map fun d => (d, score d))).filter
        (fun p => threshold ≤ p.2)).map (·.1)).length < 3 ∧
        (docs.map fun d => (d, score d)) ≠ []
    · rw [if_pos hc]
      intro hempty
      have hlen0 : (sortDesc (docs.map fun d => (d, score d))).length = 0 := by
        have := congrArg List.length hempty
        simp only [List.length_map, List.length_take, List.length_nil] at this
        omega
      rw [sortDesc, (List.perm_insertionSort scGE _).length_eq, List.length_map] at hlen0
      exact hdocs (List.length_eq_zero.mp hlen0)
    · rw [if_neg hc]
      have h3 : ¬ ((((diversifyResults (docs.map fun d => (d, score d))).filter
          (fun p => threshold ≤ p.2)).map (·.1)).length < 3) :=
        fun hA => hc ⟨hA, hscored hdocs⟩
      intro hempty
      rw [hempty] at h3
      simp at h3

/-! ### Claim C5 -/

theorem rerank_threshold_fallback_witness :
    rerank w4score w4docs (mkRat 1 2) =
      [rd "d1" "overview", rd "d2" "parser", rd "d3" "rule", rd "d4" "model",
       rd "d5" "reference"] ∧
    (rerank w4score w4docs (mkRat 9 10)).length = 3 ∧
    rerank w4score w4docs (mkRat 9 10) ≠ [] := by
  refine ⟨?_, ?_, ?_⟩
  · rw [(rerank_threshold_fallback w4score w4docs (mkRat 1 2)).1 (by decide)]
    decide
  · exact (rerank_threshold_fallback w4score w4docs (mkRat 9 10)).2.2.1 (by decide) (by decide)
  · exact (rerank_threshold_fallback w4score w4docs (mkRat 9 10)).2.2.2 (by decide)

/-- Counterexample to C5: ten scored candidates over four document types,
the top candidate of each type scoring at least 0.6, where the diversified
pre-threshold ordering places the second candidate of the highest-scoring
type ("overview", scores 1 and 0.9) before the first candidates of the
three other types: `diversify_results` re-sorts the final list purely by
score descending, so per-type coverage does not precede the runner-up of
the strongest type. -/
theorem diversify_interleaving_counterexample :
    c5scored.length = 10 ∧
    firstKeys c5scored = ["overview", "parser", "rule", "model"] ∧
    ((firstKeys c5scored).all fun k =>
      match topOfGroup c5scored k with
      | some t => decide (mkRat 6 10 ≤ t.2)
      | none => false) = true ∧
    (sortDesc c5scored).head? = some (rd "a1" "overview", 1) ∧
    allTypesBeforeSecondOf (diversifyResults c5scored) "overview"
      (firstKeys c5scored) = false := by
  decide

/-- C5, amended: the diversified list does contain a candidate of every
document type whose best score is at least 0.6 (the top-per-type phase of
`diversify_results` keeps it), but the final ordering is purely
score-descending. -/
theorem diversify_covers_types (l : List Scored) (d : RDoc) (s : ℚ)
    (hmem : (d, s) ∈ l) (hs : mkRat 6 10 ≤ s) :
    ∃ q ∈ diversifyResults l, q.1.typeKey = d.typeKey := by
  by_cases hlen : l.length ≤ 3
  · exact ⟨(d, s), by simpa [diversifyResults, hlen] using hmem, rfl⟩
  · have hkey : d.typeKey ∈ firstKeys l := typeKey_mem_firstKeys (p := (d, s)) hmem
    have hgrp : (d, s) ∈ l.filter (fun p => p.1.typeKey = d.typeKey) :=
      List.mem_filter.mpr ⟨hmem, by simp⟩
    cases hhead : (sortDesc (l.filter (fun p => p.1.typeKey = d.typeKey))).head? with
    | none =>
      exfalso
      rw [List.head?_eq_none_iff] at hhead
      have := mem_sortDesc.mpr hgrp
      rw [hhead] at this
      cases this
    | some t =>
      have hts : s ≤ t.2 := head_score_max hhead hgrp
      have htmem : t ∈ l.filter (fun p => p.1.typeKey = d.typeKey) :=
        mem_sortDesc.mp (List.mem_of_mem_head? hhead)
      have htkey : t.1.typeKey = d.typeKey := by
        simpa using (List.mem_filter.mp htmem).2
      have htops : t ∈ topPerType l := by
        refine List.mem_filterMap.mpr ⟨d.typeKey, hkey, ?_⟩
        rw [show topOfGroup l d.typeKey = some t from hhead]
        simp only [Option.some_bind]
        rw [if_pos (le_trans hs hts)]
      refine ⟨t, ?_, htkey⟩
      unfold diversifyResults
      rw [if_neg hlen]
      simp only []
      exact mem_sortDesc.mpr (List.mem_append_left _ htops)

theorem diversify_covers_types_witness :
    ∃ q ∈ diversifyResults w5scored, q.1.typeKey = (rd "x2" "parser").typeKey :=
  diversify_covers_types w5scored (rd "x2" "parser") (mkRat 6 10) (by decide) (by decide)

/-! ### Claim C8: `classify_content` refines its specification -/

theorem classifyCounts_foldl (text : Text) (ps : List (CCat × String))
    (f0 : CCat → ℕ) (t0 : ℕ) :
    (ps.foldl (fun (acc : (CCat → ℕ) × ℕ) cw =>
        let n := countWord cw.2 text
        (fun c => if c = cw.1 then acc.1 c + n else acc.1 c, acc.2 + n)) (f0, t0)).2 =
      t0 + (ps.map (fun cw => countWord cw.2 text)).sum ∧
    ∀ c, (ps.foldl (fun (acc : (CCat → ℕ) × ℕ) cw =>
        let n := countWord cw.2 text
        (fun c => if c = cw.1 then acc.1 c + n else acc.1 c, acc.2 + n)) (f0, t0)).1 c =
      f0 c + ((ps.filter (fun cw => cw.1 = c)).map (fun cw => countWord cw.2 text)).sum := by
  induction ps generalizing f0 t0 with
  | nil => simp
  | cons p ps ih =>
    simp only [List.foldl_cons, List.map_cons, List.sum_cons, List.filter_cons]
    refine ⟨?_, ?_⟩
    · rw [(ih _ _).1]; ring
    · intro c
      rw [(ih _ _).2 c]
      by_cases hc : p.1 = c
      · rw [if_pos hc.symm, if_pos (by simp [hc])]
        simp only [List.map_cons, List.sum_cons]
        ring
      · rw [if_neg (fun h => hc h.symm), if_neg (by simp [hc])]

theorem classifyCounts_snd (text : Text) :
    (classifyCounts text).2 = totalIndicators text := by
  rw [classifyCounts, (classifyCounts_foldl text indicatorPairs (fun _ => 0) 0).1]
  simp only [indicatorPairs, allCats, ccatWords, totalIndicators, catCount, List.map_cons,
    List.map_nil, List.flatten, List.sum_cons, List.sum_nil, List.append_nil, List.sum_append,
    List.map_append, Nat.zero_add]
  ring

theorem classifyCounts_fst (text : Text) (c : CCat) :
    (classifyCounts text).1 c = catCount text c := by
  rw [classifyCounts, (classifyCounts_foldl text indicatorPairs (fun _ => 0) 0).2 c]
  cases c <;> simp [indicatorPairs, allCats, ccatWords, catCount]

theorem catCount_le_total (text : Text) (c : CCat) :
    catCount text c ≤ totalIndicators text := by
  have hmem : c ∈ allCats := by cases c <;> simp [allCats]
  exact List.single_le_sum (fun _ _ => Nat.zero_le _) _
    (List.mem_map.mpr ⟨c, hmem, rfl⟩)

theorem classifyBase_eq_specBase (text : Text) (c : CCat) :
    classifyBase text c = specBase text c := by
  rw [classifyBase, specBase, classifyCounts_snd, classifyCounts_fst]
  by_cases h0 : 0 < totalIndicators text
  · rw [if_pos h0, if_pos h0]
  · rw [if_neg h0, if_neg h0]
    have hc0 : catCount text c = 0 := by
      have := catCount_le_total text c
      omega
    rw [hc0]
    norm_num

/-- C8: `classify_content` counts category-indicator keyword occurrences
and normalizes to proportions of the total indicator count, and when every
category scores below 0.2 it applies the deterministic priority fallback
parser > use_case > configuration > overview > technical driven by
single-keyword presence. -/
theorem classifyContent_eq_spec (text : Text) (c : CCat) :
    classifyContent text c = classifyContentSpec text c := by
  have hbase : classifyBase text = specBase text :=
    funext (classifyBase_eq_specBase text)
  unfold classifyContent classifyContentSpec
  simp only [hbase]
  have hcond : (allCats.all fun c => decide (specBase text c < mkRat 2 10)) = true ↔
      ∀ c ∈ allCats, specBase text c < mkRat 2 10 := by
    simp [List.all_eq_true]
  by_cases hall : ∀ c ∈ allCats, specBase text c < mkRat 2 10
  · rw [if_pos (hcond.mpr hall), if_pos hall]
    unfold fallbackPriority
    by_cases h1 : 0 < countWord "parser" text
    · rw [if_pos h1]
      simp [List.find?, h1]
    · rw [if_neg h1]
      by_cases h2 : 0 < countWord "use case" text
      · rw [if_pos h2]
        simp [List.find?, h1, h2]
      · rw [if_neg h2]
        by_cases h3 : 0 < countWord "configuration" text
        · rw [if_pos h3]
          simp [List.find?, h1, h2, h3]
        · rw [if_neg h3]
          by_cases h4 : 0 < countWord "overview" text
          · rw [if_pos h4]
            simp [List.find?, h1, h2, h3, h4]
          · rw [if_neg h4]
            simp [List.find?, h1, h2, h3, h4]
  · rw [if_neg (fun h => hall (hcond.mp h)), if_neg hall]

/-! ### Claim C9: enrichment only extends metadata -/

theorem metaKeys_metaSet (m : Meta) (k : String) (v : MVal) :
    ∀ k' ∈ metaKeys m, k' ∈ metaKeys (metaSet m k v) := by
  intro k' h
  unfold metaSet
  split
  · have heq : metaKeys (m.map fun kv => if kv.1 = k then (k, v) else kv) = metaKeys m := by
      unfold metaKeys
      rw [List.map_map]
      apply List.map_congr_left
      intro kv _
      by_cases hkv : kv.1 = k
      · simp [hkv]
      · simp [hkv]
    rwa [heq]
  · unfold metaKeys at *
    rw [List.map_append]
    exact List.mem_append_left _ h

theorem metaKeys_foldl {α : Type} (g : Meta → α → Meta)
    (hg : ∀ m a, ∀ k' ∈ metaKeys m, k' ∈ metaKeys (g m a)) (l : List α) (m : Meta) :
    ∀ k' ∈ metaKeys m, k' ∈ metaKeys (l.foldl g m) := by
  induction l generalizing m with
  | nil => intro k' h; exact h
  | cons a l ih =>
    intro k' h
    exact ih (g m a) k' (hg m a k' h)

theorem metaKeys_metaSetAll (m : Meta) (kvs : List (String × MVal)) :
    ∀ k' ∈ metaKeys m, k' ∈ metaKeys (metaSetAll m kvs) := by
  unfold metaSetAll
  exact metaKeys_foldl _ (fun m kv => metaKeys_metaSet m kv.1 kv.2) kvs m

theorem enrichDocument_pageContent (A : AnalyzerOracles) (doc : PDoc) :
    (enrichDocument A doc).pageContent = doc.pageContent := by
  unfold enrichDocument
  split
  · rfl
  · rfl

theorem enrichDocument_keys (A : AnalyzerOracles) (doc : PDoc) :
    ∀ k ∈ metaKeys doc.metadata, k ∈ metaKeys (enrichDocument A doc).metadata := by
  intro k hk
  unfold enrichDocument
  split
  · exact hk
  · simp only []
    have h1 := metaKeys_foldl
      (fun m (cl : String × List (String × String)) =>
        if cl.2 ≠ [] then metaSet m ("extracted_" ++ cl.1) (encodeEntities cl.2) else m)
      (by
        intro m a k' h
        beta_reduce
        by_cases ha : a.2 ≠ []
        · rw [if_pos ha]; exact metaKeys_metaSet _ _ _ k' h
        · rwa [if_neg ha])
      (A.entitiesOf doc.pageContent) doc.metadata k hk
    set md1 := (A.entitiesOf doc.pageContent).foldl
      (fun m cl =>
        if cl.2 ≠ [] then metaSet m ("extracted_" ++ cl.1) (encodeEntities cl.2) else m)
      doc.metadata with hmd1
    have h2 : k ∈ metaKeys (if ¬ (A.relationshipsOf doc.pageContent
        (A.entitiesOf doc.pageContent)).isEmpty then
        metaSet md1 "relationships" (.arr (A.relationshipsOf doc.pageContent
          (A.entitiesOf doc.pageContent))) else md1) := by
      split
      · exact metaKeys_metaSet _ _ _ k h1
      · exact h1
    set md2 := (if ¬ (A.relationshipsOf doc.pageContent
        (A.entitiesOf doc.pageContent)).isEmpty then
        metaSet md1 "relationships" (.arr (A.relationshipsOf doc.pageContent
          (A.entitiesOf doc.pageContent))) else md1)
    have h3 := metaKeys_metaSet md2 "content_classifications"
      (encodeCls (classifyContent doc.pageContent)) k h2
    split
    · exact metaKeys_metaSet _ _ _ k h3
    · exact h3

theorem crossReference_frame (docs : List PDoc) :
    List.Forall₂ (fun d e => e.pageContent = d.pageContent ∧
      ∀ k ∈ metaKeys d.metadata, k ∈ metaKeys e.metadata) docs (crossReference docs) := by
  unfold crossReference
  simp only []
  have hgen : ∀ (l : List PDoc) (f : ℕ → PDoc → PDoc)
      (hf : ∀ i d, (f i d).pageContent = d.pageContent ∧
        ∀ k ∈ metaKeys d.metadata, k ∈ metaKeys (f i d).metadata),
      List.Forall₂ (fun d e => e.pageContent = d.pageContent ∧
        ∀ k ∈ metaKeys d.metadata, k ∈ metaKeys e.metadata) l (l.mapIdx f) := by
    intro l
    induction l with
    | nil => intro f hf; simp [List.Forall₂.nil]
    | cons a l ih =>
      intro f hf
      rw [List.mapIdx_cons]
      exact List.Forall₂.cons (hf 0 a) (ih _ (fun i d => hf (i + 1) d))
  apply hgen
  intro i d
  constructor
  · split <;> rfl
  · intro k hk
    split
    · exact metaKeys_metaSet _ _ _ k hk
    · exact hk

theorem forall₂_comp {α β γ : Type} {r1 : α → β → Prop} {r2 : β → γ → Prop}
    {r : α → γ → Prop} (hcomp : ∀ a b c, r1 a b → r2 b c → r a c) :
    ∀ {l1 : List α} {l2 : List β} {l3 : List γ},
      List.Forall₂ r1 l1 l2 → List.Forall₂ r2 l2 l3 → List.Forall₂ r l1 l3 := by
  intro l1 l2 l3 h12 h23
  induction h12 generalizing l3 with
  | nil => cases h23; exact List.Forall₂.nil
  | cons hab htail ih =>
    cases h23 with
    | cons hbc htail' => exact List.Forall₂.cons (hcomp _ _ _ hab hbc) (ih htail')

/-- C9: the enrichment pass (`analyze_documents`: entity/relationship
extraction, classification, and cross-referencing) leaves every chunk's
page content unchanged and only extends its metadata: pointwise, the output
chunk's text equals the input chunk's text and its metadata keys are a
superset of the input chunk's metadata keys, for every entity/relationship
extractor. -/
theorem analyzeDocuments_frame (A : AnalyzerOracles) (docs : List PDoc) :
    List.Forall₂ (fun d e => e.pageContent = d.pageContent ∧
      ∀ k ∈ metaKeys d.metadata, k ∈ metaKeys e.metadata)
      docs (analyzeDocuments A docs) := by
  unfold analyzeDocuments
  have h1 : List.Forall₂ (fun d e => e.pageContent = d.pageContent ∧
      ∀ k ∈ metaKeys d.metadata, k ∈ metaKeys e.metadata)
      docs (docs.map (enrichDocument A)) := by
    rw [List.forall₂_map_right_iff]
    rw [List.forall₂_same]
    intro d _
    exact ⟨enrichDocument_pageContent A d, enrichDocument_keys A d⟩
  exact forall₂_comp
    (fun a b c h1 h2 => ⟨h2.1.trans h1.1, fun k hk => h2.2 k (h1.2 k hk)⟩)
    h1 (crossReference_frame (docs.map (enrichDocument A)))

/-! ### Text-level lemmas -/

theorem nonWS_append (a b : Text) : nonWS (a ++ b) = nonWS a ++ nonWS b :=
  List.filter_append ..

theorem nonWS_trimL (t : Text) : nonWS (trimL t) = nonWS t := by
  conv_rhs => rw [← List.takeWhile_append_dropWhile isPyWs t]
  rw [nonWS_append, trimL]
  have h : nonWS (t.takeWhile isPyWs) = [] := by
    rw [nonWS, List.filter_eq_nil_iff]
    intro c hc
    simp [List.mem_takeWhile_imp hc]
  rw [h, List.nil_append]

theorem nonWS_dropWhile (t : Text) : nonWS (t.dropWhile isPyWs) = nonWS t :=
  nonWS_trimL t

theorem nonWS_reverse (t : Text) : nonWS t.reverse = (nonWS t).reverse :=
  List.filter_reverse ..

theorem nonWS_trimR (t : Text) : nonWS (trimR t) = nonWS t := by
  rw [trimR, nonWS_reverse, nonWS_dropWhile, nonWS_reverse, List.reverse_reverse]

theorem nonWS_pyStrip (t : Text) : nonWS (pyStrip t) = nonWS t := by
  rw [pyStrip, nonWS_trimR, nonWS_trimL]

theorem pyStrip_eq_nil_of_nonWS_eq_nil {t : Text} (h : nonWS t = []) :
    pyStrip t = [] := by
  have hall : ∀ c ∈ t, isPyWs c := by
    intro c hc
    by_contra hnc
    have : c ∈ nonWS t := List.mem_filter.mpr ⟨hc, by simpa using hnc⟩
    rw [h] at this
    cases this
  rw [pyStrip, trimL, List.dropWhile_eq_nil_iff.mpr hall]
  rfl

theorem nonWS_ne_nil_of_pyStrip_ne_nil {t : Text} (h : pyStrip t ≠ []) :
    nonWS t ≠ [] :=
  fun hn => h (pyStrip_eq_nil_of_nonWS_eq_nil hn)

theorem nonWS_nlnl : nonWS nlnl = [] := rfl

theorem pySlice_append (t : Text) (a b c : ℕ) (hab : a ≤ b) (hbc : b ≤ c) :
    pySlice t a b ++ pySlice t b c = pySlice t a c := by
  unfold pySlice
  rw [List.drop_take, List.drop_take, List.drop_take]
  have hd : t.drop b = (t.drop a).drop (b - a) := by
    rw [List.drop_drop]
    congr 1
    omega
  rw [hd]
  rw [← List.take_add]
  congr 1
  omega

theorem pySlice_to_length (t : Text) (a : ℕ) : pySlice t a t.length = t.drop a := by
  rw [pySlice, List.take_length]

/-! ### Metadata access lemmas -/

theorem metaGet_metaSet_self (m : Meta) (k : String) (v : MVal) :
    metaGet (metaSet m k v) k = some v := by
  unfold metaSet
  split
  · rename_i h
    unfold metaGet
    induction m with
    | nil => simp at h
    | cons kv m ih =>
      simp only [List.map_cons]
      by_cases hkv : kv.1 = k
      · rw [if_pos hkv, List.find?_cons_of_pos _ (by simp)]
        rfl
      · rw [if_neg hkv, List.find?_cons_of_neg _ (by simp [hkv])]
        apply ih
        simp only [List.any_cons, Bool.or_eq_true, decide_eq_true_eq] at h
        rcases h with h | h
        · exact absurd h hkv
        · simpa using h
  · unfold metaGet
    rename_i h
    have hnone : m.find? (fun kv => kv.1 = k) = none := by
      rw [List.find?_eq_none]
      intro kv hkv
      simp only [decide_eq_true_eq]
      intro heq
      exact h (List.any_eq_true.mpr ⟨kv, hkv, by simp [heq]⟩)
    rw [List.find?_append, hnone]
    simp [List.find?]

theorem metaGet_metaSet_ne (m : Meta) (k k' : String) (v : MVal) (hne : k' ≠ k) :
    metaGet (metaSet m k v) k' = metaGet m k' := by
  have hmap : ∀ (m' : Meta),
      metaGet (m'.map (fun kv => if kv.1 = k then (k, v) else kv)) k' = metaGet m' k' := by
    intro m'
    unfold metaGet
    induction m' with
    | nil => rfl
    | cons kv m' ih =>
      simp only [List.map_cons]
      by_cases hkv : kv.1 = k
      · rw [if_pos hkv]
        rw [List.find?_cons_of_neg _ (by simp [Ne.symm hne]),
          List.find?_cons_of_neg _ (by simp [hkv, Ne.symm hne])]
        exact ih
      · rw [if_neg hkv]
        by_cases hkv' : kv.1 = k'
        · rw [List.find?_cons_of_pos _ (by simp [hkv']),
            List.find?_cons_of_pos _ (by simp [hkv'])]
        · rw [List.find?_cons_of_neg _ (by simp [hkv']),
            List.find?_cons_of_neg _ (by simp [hkv'])]
          exact ih
  unfold metaSet
  split
  · exact hmap m
  · unfold metaGet
    rw [List.find?_append]
    cases hfind : m.find? (fun kv => decide (kv.1 = k')) with
    | some kv => simp [hfind]
    | none => simp [hfind, List.find?, Ne.symm hne]

theorem metaGet_metaSetAll_of_not_mem (m : Meta) (kvs : List (String × MVal))
    (k' : String) (h : ∀ kv ∈ kvs, kv.1 ≠ k') :
    metaGet (metaSetAll m kvs) k' = metaGet m k' := by
  unfold metaSetAll
  induction kvs generalizing m with
  | nil => rfl
  | cons kv kvs ih =>
    rw [List.foldl_cons]
    rw [ih _ (fun kv hkv => h kv (List.mem_cons_of_mem _ hkv))]
    exact metaGet_metaSet_ne m kv.1 k' kv.2 (Ne.symm (h kv (List.mem_cons_self ..)))

/-! ### `mapIdx` helpers -/

theorem exists_of_mem_mapIdx' {α β : Type} {l : List α} {f : ℕ → α → β} {b : β}
    (h : b ∈ l.mapIdx f) : ∃ i a, a ∈ l ∧ b = f i a := by
  induction l generalizing f with
  | nil => cases h
  | cons a l ih =>
    rw [List.mapIdx_cons] at h
    rcases List.mem_cons.mp h with rfl | h'
    · exact ⟨0, a, List.mem_cons_self .., rfl⟩
    · rcases ih h' with ⟨i, a', ha', rfl⟩
      exact ⟨i + 1, a', List.mem_cons_of_mem _ ha', rfl⟩

theorem map_mapIdx_cancel {α β : Type} (l : List α) (f : ℕ → α → β) (g : β → α)
    (hgf : ∀ i a, g (f i a) = a) : (l.mapIdx f).map g = l := by
  induction l generalizing f with
  | nil => rfl
  | cons a l ih =>
    rw [List.mapIdx_cons, List.map_cons, hgf, ih _ (fun i a => hgf (i + 1) a)]

/-! ### Properties of the semantic-boundary segmenter and merge loop -/

theorem map_mapIdx_range {α β : Type} (l : List α) (f : ℕ → α → β) (g : β → Option β')
    (v : ℕ → Option β') (hgf : ∀ i a, g (f i a) = v i) :
    (l.mapIdx f).map g = (List.range l.length).map v := by
  induction l generalizing f v with
  | nil => rfl
  | cons a l ih =>
    rw [List.mapIdx_cons, List.map_cons, hgf, List.length_cons, List.range_succ_eq_map,
      List.map_cons, List.map_map]
    congr 1
    exact ih (fun i a => f (i + 1) a) (fun i => v (i + 1)) (fun i a => hgf (i + 1) a)

theorem nwJoin_nil : nwJoin [] = [] := rfl

theorem nwJoin_cons (s : Text) (ls : List Text) :
    nwJoin (s :: ls) = nonWS s ++ nwJoin ls := by
  unfold nwJoin
  rw [List.map_cons, List.flatten_cons]

theorem nwJoin_append (a b : List Text) : nwJoin (a ++ b) = nwJoin a ++ nwJoin b := by
  unfold nwJoin
  rw [List.map_append, List.flatten_append]

/-- The non-whitespace content of the segment list is exactly the
non-whitespace content of the text from the first boundary on. -/
theorem boundarySegments_nwJoin (text : Text) :
    ∀ (b : ℕ) (bs : List ℕ), List.Chain' (· ≤ ·) (b :: bs) →
      (∀ x ∈ b :: bs, x ≤ text.length) →
      nwJoin (boundarySegments text (b :: bs)) = nonWS (pySlice text b text.length) := by
  intro b bs
  induction bs generalizing b with
  | nil =>
    intro _ _
    unfold boundarySegments
    split
    · rename_i hseg
      rw [nwJoin_nil, ← nonWS_pyStrip, hseg]
      rfl
    · rw [nwJoin_cons, nwJoin_nil, List.append_nil, nonWS_pyStrip]
  | cons b2 bs ih =>
    intro hchain hbound
    have hb12 : b ≤ b2 := (List.chain'_cons.mp hchain).1
    have h2len : b2 ≤ text.length := hbound b2 (by simp)
    have hrec := ih b2 (List.chain'_cons.mp hchain).2
      (fun x hx => hbound x (List.mem_cons_of_mem _ hx))
    show nwJoin ((if pyStrip (pySlice text b b2) = [] then []
      else [pyStrip (pySlice text b b2)]) ++ boundarySegments text (b2 :: bs)) = _
    rw [nwJoin_append, hrec]
    have hseg : nwJoin (if pyStrip (pySlice text b b2) = [] then []
        else [pyStrip (pySlice text b b2)]) = nonWS (pySlice text b b2) := by
      split
      · rename_i hseg
        rw [nwJoin_nil, ← nonWS_pyStrip, hseg]
        rfl
      · rw [nwJoin_cons, nwJoin_nil, List.append_nil, nonWS_pyStrip]
    rw [hseg, ← nonWS_append, pySlice_append text b b2 text.length hb12 h2len]

/-- Every chunk the merge loop emits has non-whitespace content that sits,
in order, inside `W`, provided the pending chunk plus the remaining
segments do. -/
theorem mergeSegsAux_nonWS_within (maxSize : ℕ) (W : Text) :
    ∀ (segs : List Text) (cur : Text),
      List.IsInfix (nonWS cur ++ nwJoin segs) W →
      ∀ chunk ∈ mergeSegsAux maxSize cur segs, List.IsInfix (nonWS chunk) W := by
  intro segs
  induction segs with
  | nil =>
    intro cur hinf chunk hchunk
    unfold mergeSegsAux at hchunk
    split at hchunk
    · cases hchunk
    · rcases List.mem_singleton.mp hchunk with rfl
      rw [nwJoin_nil, List.append_nil] at hinf
      exact hinf
  | cons seg rest ih =>
    intro cur hinf chunk hchunk
    rw [nwJoin_cons] at hinf
    unfold mergeSegsAux at hchunk
    split at hchunk
    · rcases List.mem_cons.mp hchunk with rfl | h'
      · exact ( List.prefix_append (nonWS chunk) _).isInfix.trans hinf
      · apply ih seg _ chunk h'
        exact ((List.suffix_append (nonWS cur) _).isInfix.trans hinf)
    · split at hchunk
      · rename_i hcur
        apply ih seg _ chunk hchunk
        rw [hcur] at hinf
        simpa using hinf
      · apply ih (cur ++ nlnl ++ seg) _ chunk hchunk
        rw [nonWS_append, nonWS_append, nonWS_nlnl, List.append_nil,
          List.append_assoc]
        exact hinf

/-- Size classification of the merge loop's output: every emitted chunk is
either the pending chunk it started from, one of the input segments, or was
produced by a merge and is bounded by `max_size + 2`. -/
theorem mergeSegsAux_size (maxSize : ℕ) :
    ∀ (segs : List Text) (cur : Text) (chunk : Text),
      chunk ∈ mergeSegsAux maxSize cur segs →
      chunk = cur ∨ chunk ∈ segs ∨ chunk.length ≤ maxSize + 2 := by
  intro segs
  induction segs with
  | nil =>
    intro cur chunk h
    unfold mergeSegsAux at h
    split at h
    · cases h
    · rcases List.mem_singleton.mp h with rfl
      left; rfl
  | cons seg rest ih =>
    intro cur chunk h
    unfold mergeSegsAux at h
    split at h
    · rcases List.mem_cons.mp h with rfl | h'
      · left; rfl
      · rcases ih seg chunk h' with rfl | h2 | h3
        · right; left; exact List.mem_cons_self ..
        · right; left; exact List.mem_cons_of_mem _ h2
        · right; right; exact h3
    · split at h
      · rcases ih seg chunk h with rfl | h2 | h3
        · right; left; exact List.mem_cons_self ..
        · right; left; exact List.mem_cons_of_mem _ h2
        · right; right; exact h3
      · rename_i hnot hcur
        rcases ih (cur ++ nlnl ++ seg) chunk h with rfl | h2 | h3
        · right; right
          have hle : cur.length + seg.length ≤ maxSize := by
            by_contra hgt
            exact hnot ⟨hcur, by omega⟩
          simp only [List.length_append]
          have : nlnl.length = 2 := rfl
          omega
        · right; left; exact List.mem_cons_of_mem _ h2
        · right; right; exact h3

/-- Non-whitespace preservation of the merge loop: if every segment has
some non-whitespace content, so does every emitted chunk. -/
theorem mergeSegsAux_nonWS_ne (maxSize : ℕ) :
    ∀ (segs : List Text) (cur : Text),
      (∀ s ∈ segs, nonWS s ≠ []) → (cur ≠ [] → nonWS cur ≠ []) →
      ∀ chunk ∈ mergeSegsAux maxSize cur segs, nonWS chunk ≠ [] := by
  intro segs
  induction segs with
  | nil =>
    intro cur _ hcur chunk h
    unfold mergeSegsAux at h
    split at h
    · cases h
    · rcases List.mem_singleton.mp h with rfl
      exact hcur (by assumption)
  | cons seg rest ih =>
    intro cur hsegs hcur chunk h
    have hseg : nonWS seg ≠ [] := hsegs seg (List.mem_cons_self ..)
    have hrest : ∀ s ∈ rest, nonWS s ≠ [] :=
      fun s hs => hsegs s (List.mem_cons_of_mem _ hs)
    unfold mergeSegsAux at h
    split at h
    · rename_i hc
      rcases List.mem_cons.mp h with rfl | h'
      · exact hcur hc.1
      · exact ih seg hrest (fun _ => hseg) chunk h'
    · split at h
      · exact ih seg hrest (fun _ => hseg) chunk h
      · refine ih (cur ++ nlnl ++ seg) hrest (fun _ => ?_) chunk h
        rw [nonWS_append]
        intro hemp
        exact hseg (List.append_eq_nil.mp hemp).2

theorem boundarySegments_pyStrip_ne (text : Text) :
    ∀ (bs : List ℕ), ∀ s ∈ boundarySegments text bs, s ≠ [] ∧ nonWS s ≠ [] := by
  intro bs
  induction bs with
  | nil => intro s hs; cases hs
  | cons b bs ih =>
    intro s hs
    cases bs with
    | nil =>
      unfold boundarySegments at hs
      split at hs
      · cases hs
      · rcases List.mem_singleton.mp hs with rfl
        rename_i hne
        refine ⟨hne, ?_⟩
        rw [nonWS_pyStrip]
        exact nonWS_ne_nil_of_pyStrip_ne_nil hne
    | cons b2 bs' =>
      unfold boundarySegments at hs
      rcases List.mem_append.mp hs with h1 | h2
      · split at h1
        · cases h1
        · rcases List.mem_singleton.mp h1 with rfl
          rename_i hne
          refine ⟨hne, ?_⟩
          rw [nonWS_pyStrip]
          exact nonWS_ne_nil_of_pyStrip_ne_nil hne
      · exact ih s h2

/-- The page contents of the chunks built by `_chunk_by_semantic_boundaries`
over found boundaries are exactly the merge loop's output. -/
theorem chunkBySemanticBoundaries_texts (O : Oracles) (cfg : ChunkCfg) (doc : PDoc)
    (hb : O.boundariesOf doc.pageContent ≠ []) :
    (chunkBySemanticBoundaries O cfg doc).map (·.pageContent) =
      mergeSegs cfg.maxSize (boundarySegments doc.pageContent (O.boundariesOf doc.pageContent)) := by
  unfold chunkBySemanticBoundaries
  rw [if_neg hb]
  exact map_mapIdx_cancel _ _ _ (fun i a => rfl)

/-! ### Claim C1 -/

/-- C1, amended: every chunk assembled by `_chunk_by_semantic_boundaries`
over found boundaries (sorted offsets into the text, as
`_find_semantic_boundaries` produces) has its non-whitespace character
sequence occurring in order within the source document. -/
theorem semantic_chunks_containment (O : Oracles) (cfg : ChunkCfg) (doc : PDoc)
    (hb : O.boundariesOf doc.pageContent ≠ [])
    (hchain : List.Chain' (· ≤ ·) (O.boundariesOf doc.pageContent))
    (hbound : ∀ b ∈ O.boundariesOf doc.pageContent, b ≤ doc.pageContent.length) :
    nonWSContained (chunkBySemanticBoundaries O cfg doc) doc.pageContent := by
  intro t ht
  rw [chunkBySemanticBoundaries_texts O cfg doc hb] at ht
  rcases hbs : O.boundariesOf doc.pageContent with - | ⟨b, bs⟩
  · exact absurd hbs hb
  · rw [hbs] at ht hchain hbound
    have hjoin := boundarySegments_nwJoin doc.pageContent b bs hchain hbound
    have hinf : List.IsInfix
        (nonWS ([] : Text) ++ nwJoin (boundarySegments doc.pageContent (b :: bs)))
        (nonWS doc.pageContent) := by
      rw [show nonWS ([] : Text) = [] from rfl, List.nil_append, hjoin, pySlice_to_length]
      exact ((List.drop_suffix b doc.pageContent).filter _).isInfix
    exact (mergeSegsAux_nonWS_within cfg.maxSize _ _ [] hinf t ht).sublist

theorem semantic_chunks_containment_witness :
    nonWSContained (chunkBySemanticBoundaries oraclesW defaultCfg cwDoc)
      cwDoc.pageContent :=
  semantic_chunks_containment oraclesW defaultCfg cwDoc (by decide)
    (List.chain'_singleton 0) (by decide)

/-! ### Claim C2 -/

/-- Counterexample to C1 as stated for the whole pipeline: the data-source
section splitter rewrites the underlined header `MyHeader\n======` into
`# MyHeader`; the produced chunk contains a `#` that occurs nowhere in the
source, so its non-whitespace sequence is not contained in the source's. -/
theorem containment_counterexample :
    c1texts.length = 2 ∧
    '#' ∈ c1texts.getD 1 [] ∧
    '#' ∉ c1doc.pageContent ∧
    ¬ List.Sublist (nonWS (c1texts.getD 1 [])) (nonWS c1doc.pageContent) := by
  refine ⟨by decide, by decide, by decide, ?_⟩
  intro h
  have hmem : '#' ∈ nonWS (c1texts.getD 1 []) := by decide
  have hsub : '#' ∈ nonWS c1doc.pageContent := h.subset hmem
  have hsrc : '#' ∈ c1doc.pageContent := List.mem_of_mem_filter hsub
  exact absurd hsrc (by decide)

/-- C2, amended: every chunk of `_chunk_by_semantic_boundaries` is either a
single inter-boundary segment (which carries no flag and may exceed
`max_size`) or was produced by merging and is bounded by `max_size + 2`
(the `"\n\n"` separators are not counted by the merge condition); the
table-aware strategy is bounded by table/line counts instead of
`max_size`. -/
theorem semantic_chunk_size_bound (O : Oracles) (cfg : ChunkCfg) (doc : PDoc)
    (hb : O.boundariesOf doc.pageContent ≠ []) :
    sizeClassified (chunkBySemanticBoundaries O cfg doc)
      (boundarySegments doc.pageContent (O.boundariesOf doc.pageContent)) cfg.maxSize := by
  intro t ht
  rw [chunkBySemanticBoundaries_texts O cfg doc hb] at ht
  rcases mergeSegsAux_size cfg.maxSize _ [] t ht with rfl | h | h
  · right; simp
  · left; exact h
  · right; exact h

theorem semantic_chunk_size_bound_witness :
    sizeClassified (chunkBySemanticBoundaries oraclesW defaultCfg cwDoc)
      (boundarySegments cwDoc.pageContent (oraclesW.boundariesOf cwDoc.pageContent))
      defaultCfg.maxSize :=
  semantic_chunk_size_bound oraclesW defaultCfg cwDoc (by decide)

/-! ### Claim C6 -/

/-- Counterexample to C2 as stated: the table-heavy strategy emits a
1582-character chunk (max_size is 1500) that is not the whole document and
bundles two tables with surrounding prose — not an atomic unit — and whose
metadata keys are exactly those of every other chunk of the document
(`table_heavy` is set document-wide; no key marks the oversized chunk as an
intentionally-preserved atomic unit). -/
theorem size_invariant_counterexample :
    c2out.length = 2 ∧
    smallCfg.maxSize < ((c2out.map (·.pageContent)).getD 0 []).length ∧
    (c2out.map (·.pageContent)).getD 0 [] ≠ c2doc.pageContent ∧
    2 ≤ ((splitLines ((c2out.map (·.pageContent)).getD 0 [])).filter isTableSep).length ∧
    ((c2out.map (·.pageContent)).getD 1 []).length ≤ smallCfg.maxSize ∧
    c2out.map (fun c => metaKeys c.metadata) =
      [["doc_type", "content_type", "table_heavy", "entities", "security_entities",
        "exabeam_entities", "complexity", "information_density", "chunk_index", "chunk_id"],
       ["doc_type", "content_type", "table_heavy", "entities", "security_entities",
        "exabeam_entities", "complexity", "information_density", "chunk_index", "chunk_id"]] := by
  decide

/-- C6, amended: empty or whitespace-only documents produce zero chunks
(from `chunk_document` and from `split_documents`), and the
semantic-boundary assembler never emits an empty or whitespace-only chunk;
the parser/data-source section splitters, however, can (see the
counterexample). -/
theorem empty_documents_zero_chunks (O : Oracles) (cfg : ChunkCfg)
    (A : AnalyzerOracles) (doc0 doc : PDoc) (docs : List PDoc) :
    (pyStrip doc0.pageContent = [] → chunkDocument O cfg doc0 = []) ∧
    ((∀ d ∈ docs, pyStrip d.pageContent = []) → splitDocuments A O cfg docs = []) ∧
    (O.boundariesOf doc.pageContent ≠ [] →
      noBlankChunks (chunkBySemanticBoundaries O cfg doc)) := by
  refine ⟨?_, ?_, ?_⟩
  · intro h
    unfold chunkDocument
    rw [if_pos h]
  · intro hall
    unfold splitDocuments
    rw [List.flatten_eq_nil_iff]
    intro x hx
    rcases List.mem_map.mp hx with ⟨d, hd, rfl⟩
    rw [if_pos (hall d hd)]
  · intro hb t ht
    rw [chunkBySemanticBoundaries_texts O cfg doc hb] at ht
    have hsegs := boundarySegments_pyStrip_ne doc.pageContent (O.boundariesOf doc.pageContent)
    have hnw : nonWS t ≠ [] := by
      refine mergeSegsAux_nonWS_ne cfg.maxSize _ [] (fun s hs => (hsegs s hs).2)
        (fun hcur => absurd rfl hcur) t ht
    intro hstrip
    apply hnw
    rw [← nonWS_pyStrip, hstrip]
    rfl

theorem empty_documents_zero_chunks_witness :
    chunkDocument oraclesW defaultCfg emptyDoc = [] ∧
    splitDocuments analyzer0 oraclesW defaultCfg [emptyDoc] = [] ∧
    noBlankChunks (chunkBySemanticBoundaries oraclesW defaultCfg cwDoc) :=
  ⟨(empty_documents_zero_chunks oraclesW defaultCfg analyzer0 emptyDoc cwDoc
      [emptyDoc]).1 (by decide),
   (empty_documents_zero_chunks oraclesW defaultCfg analyzer0 emptyDoc cwDoc
      [emptyDoc]).2.1 (by decide),
   (empty_documents_zero_chunks oraclesW defaultCfg analyzer0 emptyDoc cwDoc
      [emptyDoc]).2.2 (by decide)⟩

/-! ### Claim C7 -/

/-- Counterexample to the second half of C6: a non-empty parser document
whose leading blank lines precede the first header yields a first chunk
whose text is `"\n"` — whitespace-only. -/
theorem whitespace_chunk_counterexample :
    pyStrip c6doc.pageContent ≠ [] ∧
    ((chunkDocument oracles0 smallCfg c6doc).map (·.pageContent)).getD 0 ['x'] = ['\n'] ∧
    pyStrip (((chunkDocument oracles0 smallCfg c6doc).map (·.pageContent)).getD 0 ['x']) = [] := by
  refine ⟨by decide, by decide, by decide⟩

/-- C7, amended: within one document's semantic-boundary chunking, chunks
carry pairwise-distinct `chunk_index` metadata (0, 1, 2, …, which also
makes their generated `chunk_id` suffixes distinct); `split_documents`
performs no cross-document collision handling (see the counterexample). -/
theorem chunk_index_distinct (O : Oracles) (cfg : ChunkCfg) (doc : PDoc) :
    (chunkBySemanticBoundaries O cfg doc).map (fun c => metaGet c.metadata "chunk_index") =
      (List.range (chunkBySemanticBoundaries O cfg doc).length).map (fun i => some (.n i)) ∧
    ((chunkBySemanticBoundaries O cfg doc).map
      (fun c => metaGet c.metadata "chunk_index")).Nodup := by
  have hidx : ∀ (md : Meta) (i : ℕ) (ch : Text),
      metaGet (mkChunkDoc O md i ch).metadata "chunk_index" = some (.n i) := by
    intro md i ch
    unfold mkChunkDoc
    simp only []
    rw [metaGet_metaSetAll_of_not_mem _ _ _ (by
      intro kv hkv
      have hmem : kv.1 ∈ (featItems (O.featuresOf ch)).map (·.1) :=
        List.mem_map_of_mem _ hkv
      rw [show (featItems (O.featuresOf ch)).map (·.1) =
        ["content_type", "entities", "security_entities", "exabeam_entities",
         "complexity", "information_density"] from rfl] at hmem
      intro heq
      rw [heq] at hmem
      exact absurd hmem (by decide))]
    rw [metaGet_metaSet_ne _ _ _ _ (by decide)]
    exact metaGet_metaSet_self _ _ _
  have hmain : ∀ (l : List Text),
      ((l.mapIdx (fun i c => mkChunkDoc O doc.metadata i c)).map
        (fun c => metaGet c.metadata "chunk_index")) =
      (List.range l.length).map (fun i => some (.n i)) :=
    fun l => map_mapIdx_range l (fun i c => mkChunkDoc O doc.metadata i c)
      (fun c => metaGet c.metadata "chunk_index") (fun i => some (.n i))
      (fun i a => hidx doc.metadata i a)
  have heq : (chunkBySemanticBoundaries O cfg doc).map
      (fun c => metaGet c.metadata "chunk_index") =
      (List.range (chunkBySemanticBoundaries O cfg doc).length).map (fun i => some (.n i)) := by
    unfold chunkBySemanticBoundaries
    simp only []
    by_cases hbs : O.boundariesOf doc.pageContent = []
    · rw [if_pos hbs]
      rcases hadj : O.adjustOf doc.pageContent with ⟨sz, ov⟩
      simp only [hadj]
      rw [hmain, List.length_mapIdx]
    · rw [if_neg hbs]
      rw [hmain, List.length_mapIdx]
  refine ⟨heq, ?_⟩
  rw [heq]
  exact (List.nodup_range _).map (fun a b h => by simpa using h)

/-- Counterexample to C7 as stated: two parser documents without `id`
metadata, processed in one `split_documents` run, both produce the
`chunk_id` `"doc_chunk_0"` — no disambiguating suffix is ever applied. -/
theorem chunk_id_collision_counterexample :
    c7ids = ["doc_chunk_0", "doc_chunk_0"] ∧ ¬ c7ids.Nodup := by
  refine ⟨by decide, by decide⟩

/-! ### Claim C3: fence integrity of the parser-document splitter -/

theorem not_mem_splitLines (t : Text) : ∀ l ∈ splitLines t, '\n' ∉ l := by
  unfold splitLines List.splitOn
  induction t with
  | nil =>
    intro l hl
    rw [List.splitOnP_nil] at hl
    rcases List.mem_singleton.mp hl with rfl
    simp
  | cons c t ih =>
    intro l hl
    rw [List.splitOnP_cons] at hl
    by_cases hc : c = '\n'
    · rw [if_pos (by simp [hc])] at hl
      rcases List.mem_cons.mp hl with rfl | h
      · simp
      · exact ih l h
    · rw [if_neg (by simp [hc])] at hl
      cases hrec : t.splitOnP (· == '\n') with
      | nil => exact absurd hrec (List.splitOnP_ne_nil _ t)
      | cons h0 rest =>
        rw [hrec, List.modifyHead_cons] at hl
        rcases List.mem_cons.mp hl with rfl | h
        · intro hmem
          rcases List.mem_cons.mp hmem with heq | hmem'
          · exact hc heq.symm
          · exact ih h0 (by rw [hrec]; exact List.mem_cons_self ..) hmem'
        · exact ih l (by rw [hrec]; exact List.mem_cons_of_mem _ h)

theorem splitLines_joinNL (ls : List Text) (hne : ls ≠ [])
    (hnl : ∀ l ∈ ls, '\n' ∉ l) : splitLines (joinNL ls) = ls :=
  List.splitOn_intercalate ls '\n' hnl hne

theorem fenceCount_joinNL (ls : List Text) (hne : ls ≠ [])
    (hnl : ∀ l ∈ ls, '\n' ∉ l) : fenceCount (joinNL ls) = countDelims ls := by
  unfold fenceCount countDelims
  rw [splitLines_joinNL ls hne hnl]

theorem countDelims_append_singleton (ls : List Text) (l : Text) :
    countDelims (ls ++ [l]) = countDelims ls + (if isDelimLine l then 1 else 0) := by
  unfold countDelims
  rw [List.filter_append, List.length_append]
  congr 1
  by_cases h : isDelimLine l
  · simp [h]
  · simp [h]

theorem countDelims_cons (l : Text) (ls : List Text) :
    countDelims (l :: ls) = (if isDelimLine l then 1 else 0) + countDelims ls := by
  unfold countDelims
  rw [List.filter_cons]
  by_cases h : isDelimLine l
  · simp only [h, if_pos, List.length_cons]
    omega
  · simp [h]

theorem even_sum_of_forall {l : List ℕ} (h : ∀ x ∈ l, Even x) : Even l.sum := by
  induction l with
  | nil => simp
  | cons a l ih =>
    rw [List.sum_cons]
    exact (h a (List.mem_cons_self ..)).add
      (ih (fun x hx => h x (List.mem_cons_of_mem _ hx)))

theorem parserStep_inv (st : SecState) (line : Text) (hline : '\n' ∉ line)
    (hinv : ParserInv st) :
    ParserInv (parserStep st line) ∧
    totalDelims (parserStep st line) =
      totalDelims st + (if isDelimLine line then 1 else 0) := by
  obtain ⟨secs, cur, code⟩ := st
  obtain ⟨hsec, hpar, hnl⟩ := hinv
  simp only [] at hsec hpar hnl
  have hnl' : ∀ l ∈ cur ++ [line], '\n' ∉ l := by
    intro l hl
    rcases List.mem_append.mp hl with h | h
    · exact hnl l h
    · rcases List.mem_singleton.mp h with rfl; exact hline
  unfold parserStep
  simp only []
  by_cases hdelim : isDelimLine line
  · rw [if_pos hdelim]
    refine ⟨⟨hsec, ?_, hnl'⟩, ?_⟩
    · simp only []
      rw [countDelims_append_singleton, if_pos hdelim, Nat.even_add_one]
      cases code
      · have heven : Even (countDelims cur) := hpar.mpr rfl
        simp only [Bool.not_false]
        constructor
        · intro h; exact absurd heven h
        · intro h; exact absurd h (by simp)
      · have hnoteven : ¬ Even (countDelims cur) := by
          intro he
          exact absurd (hpar.mp he) (by simp)
        simp only [Bool.not_true]
        exact iff_true_intro hnoteven
    · unfold totalDelims
      simp only []
      rw [countDelims_append_singleton, if_pos hdelim]
      ring
  · rw [if_neg hdelim]
    by_cases hcode : code = true
    · rw [if_pos hcode]
      refine ⟨⟨hsec, ?_, hnl'⟩, ?_⟩
      · simp only []
        rw [countDelims_append_singleton, if_neg hdelim]
        simpa using hpar
      · unfold totalDelims
        simp only []
        rw [countDelims_append_singleton, if_neg hdelim]
        ring
    · rw [if_neg hcode]
      have hcode' : code = false := by
        cases code
        · rfl
        · exact absurd rfl hcode
      subst hcode'
      by_cases hheader : isHeaderLine line
      · rw [if_pos hheader]
        by_cases hcur : cur ≠ []
        · rw [if_pos hcur]
          refine ⟨⟨?_, ?_, ?_⟩, ?_⟩
          · intro s hs
            rcases List.mem_append.mp hs with h | h
            · exact hsec s h
            · rcases List.mem_singleton.mp h with rfl
              rw [fenceCount_joinNL _ hcur hnl]
              exact hpar.mpr rfl
          · simp only []
            rw [countDelims_cons, if_neg hdelim]
            simp [countDelims]
          · intro l hl
            rcases List.mem_singleton.mp hl with rfl
            exact hline
          · unfold totalDelims
            simp only [List.map_append, List.sum_append, List.map_cons, List.map_nil,
              List.sum_cons, List.sum_nil]
            rw [fenceCount_joinNL _ hcur hnl, countDelims_cons, if_neg hdelim]
            simp [countDelims]
        · rw [if_neg hcur]
          have hcur' : cur = [] := by
            by_contra h; exact hcur h
          subst hcur'
          refine ⟨⟨hsec, ?_, ?_⟩, ?_⟩
          · simp only []
            rw [countDelims_cons, if_neg hdelim]
            simp [countDelims]
          · intro l hl
            rcases List.mem_singleton.mp hl with rfl
            exact hline
          · unfold totalDelims
            simp only []
            rw [countDelims_cons, if_neg hdelim]
            simp [countDelims]
      · rw [if_neg hheader]
        refine ⟨⟨hsec, ?_, hnl'⟩, ?_⟩
        · simp only []
          rw [countDelims_append_singleton, if_neg hdelim]
          simpa using hpar
        · unfold totalDelims
          simp only []
          rw [countDelims_append_singleton, if_neg hdelim]
          ring

theorem parserFold_inv (ls : List Text) (hls : ∀ l ∈ ls, '\n' ∉ l) :
    ∀ (st : SecState), ParserInv st →
      ParserInv (ls.foldl parserStep st) ∧
      totalDelims (ls.foldl parserStep st) = totalDelims st + countDelims ls := by
  induction ls with
  | nil =>
    intro st h
    exact ⟨h, by simp [countDelims]⟩
  | cons l ls ih =>
    intro st h
    obtain ⟨h1, h2⟩ := parserStep_inv st l (hls l (List.mem_cons_self ..)) h
    obtain ⟨h3, h4⟩ := ih (fun x hx => hls x (List.mem_cons_of_mem _ hx)) (parserStep st l) h1
    refine ⟨by rw [List.foldl_cons]; exact h3, ?_⟩
    rw [List.foldl_cons, h4, h2, countDelims_cons]
    ring

theorem parserSections_even (text : Text) (heven : Even (fenceCount text)) :
    ∀ s ∈ parserSections text, Even (fenceCount s) := by
  unfold parserSections
  have h0 : ParserInv ⟨[], [], false⟩ :=
    ⟨fun s hs => absurd hs (List.not_mem_nil s), by simp [countDelims],
     fun l hl => absurd hl (List.not_mem_nil l)⟩
  obtain ⟨⟨hsec, hpar, hnl⟩, htot⟩ :=
    parserFold_inv (splitLines text) (not_mem_splitLines text) ⟨[], [], false⟩ h0
  have htot' : totalDelims ((splitLines text).foldl parserStep ⟨[], [], false⟩) =
      fenceCount text := by
    rw [htot]
    unfold totalDelims fenceCount countDelims
    simp
  intro s hs
  simp only [ne_eq] at hs
  split at hs
  · rcases List.mem_append.mp hs with h | h
    · exact hsec s h
    · rcases List.mem_singleton.mp h with rfl
      rename_i hcur
      rw [fenceCount_joinNL _ hcur hnl]
      have hsumEven : Even ((((splitLines text).foldl parserStep
          ⟨[], [], false⟩).sections.map fenceCount).sum) :=
        even_sum_of_forall (by
          intro x hx
          rcases List.mem_map.mp hx with ⟨s', hs', rfl⟩
          exact hsec s' hs')
      have htotEven : Even (totalDelims ((splitLines text).foldl parserStep
          ⟨[], [], false⟩)) := by
        rw [htot']; exact heven
      unfold totalDelims at htotEven
      exact (Nat.even_add.mp htotEven).mp hsumEven
  · exact hsec s hs

/-- C3, amended: for parser-type documents whose code fences are balanced
(an even number of fence-delimiter lines) and whose sections all fit within
`max_size`, every produced chunk contains an even number of fence-delimiter
lines — the parser section splitter never starts a section inside an open
code fence.  (As stated, the claim fails: an unterminated fence in the
source yields an odd-count chunk, see the counterexample; and the generic
semantic-boundary strategy has no fence awareness at all.) -/
theorem parser_chunks_even_fences (O : Oracles) (cfg : ChunkCfg) (doc : PDoc)
    (hdt : metaGetStr doc.metadata "doc_type" "" = "parser")
    (heven : Even (fenceCount doc.pageContent))
    (hsec : ∀ s ∈ parserSections doc.pageContent, s.length ≤ cfg.maxSize) :
    evenFenceChunks (chunkDocument O cfg doc) := by
  intro t ht
  unfold chunkDocument at ht
  by_cases hempty : pyStrip doc.pageContent = []
  · rw [if_pos hempty] at ht; cases ht
  · rw [if_neg hempty] at ht
    simp only [] at ht
    rw [if_pos (Or.inl hdt)] at ht
    unfold chunkParserDocument at ht
    by_cases hlen : doc.pageContent.length ≤ cfg.maxSize
    · rw [if_pos hlen] at ht
      simp only [List.map_cons, List.map_nil] at ht
      rcases List.mem_singleton.mp ht with rfl
      exact heven
    · rw [if_neg hlen] at ht
      rcases List.mem_map.mp ht with ⟨c, hc, rfl⟩
      rcases List.mem_flatten.mp hc with ⟨inner, hinner, hcin⟩
      rcases exists_of_mem_mapIdx' hinner with ⟨i, s, hsmem, rfl⟩
      rw [if_pos (hsec s hsmem)] at hcin
      rcases List.mem_singleton.mp hcin with rfl
      exact parserSections_even doc.pageContent heven s hsmem

theorem parser_chunks_even_fences_witness :
    evenFenceChunks (chunkDocument oracles0 defaultCfg c3wDoc) :=
  parser_chunks_even_fences oracles0 defaultCfg c3wDoc (by decide) (by decide)
    (by decide)

/-- Counterexample to C3 as stated: a parser document that is a single
unterminated code fence is kept whole, producing one chunk containing an
odd number (one) of fence-delimiter lines. -/
theorem fence_integrity_counterexample :
    (chunkDocument oracles0 defaultCfg c3doc).map (·.pageContent) = [c3doc.pageContent] ∧
    fenceCount c3doc.pageContent = 1 ∧
    ¬ Even (fenceCount
      (((chunkDocument oracles0 defaultCfg c3doc).map (·.pageContent)).getD 0 [])) := by
  refine ⟨by decide, by decide, by decide⟩

end Exasp
